import Mathlib

/-!
# Verification of the pycloud discrete-event cloud simulator

Shallow embedding of the simulator's scheduling stack:

* `src/policy/vmm.py` — space-shared hypervisor (`VmmSpaceShared`);
* `src/policy/vmp.py` — first-fit VM placement (`VmpFirstFit`);
* `src/policy/os.py` — time-shared OS dispatcher (`OsTimeShared`);
* `src/policy/control_plane.py` — round-robin control plane;
* `src/model/__init__.py` — `App.resume` and the data model;
* `src/module/__init__.py` — the `request.arrive` handler.

Modelling conventions:

* Python objects compared by identity carry an explicit numeric id
  (`vid`, `aid`, `cid`); Python `==` on them is id equality.
* Python `set[int]` becomes `Finset ℕ`.  CPython iterates small-integer
  sets in ascending numeric order and `set.pop` removes the first element
  of that order; we model iteration by `ascList` (ascending enumeration)
  and `pop` by removing minima.  The conservation and existence claims
  proved below do not depend on this order.
* Python `dict` keyed by object identity becomes an association list over
  ids (`alookup` / `ainsert` / `aerase`), preserving insertion order and
  overwrite-on-assignment semantics.
* Machine integers are `Nat`/`Int` (Python ints are unbounded, so no
  wrap-around is modelled); Python floor division `//` on possibly
  negative values is `Int.fdiv`.
* Cycle counts (`LENGTH`, core frequencies) are `Nat`, following the data
  model invariant `0 ≤ remaining[i] ≤ length[i]`.
-/

namespace PyCloud

/-! ## Association lists (Python dicts keyed by object id) -/

/-- Python dict read access `d[k]` (first binding wins; keys are unique in
any reachable state). -/
def alookup {α : Type} (k : Nat) : List (Nat × α) → Option α
  | [] => none
  | (k', v) :: rest => if k' = k then some v else alookup k rest

/-- Python dict assignment `d[k] = v`: overwrite in place if the key is
present, append otherwise. -/
def ainsert {α : Type} (k : Nat) (v : α) : List (Nat × α) → List (Nat × α)
  | [] => [(k, v)]
  | (k', v') :: rest => if k' = k then (k', v) :: rest else (k', v') :: ainsert k v rest

/-- Python `del d[k]` (removes the first binding of `k`). -/
def aerase {α : Type} (k : Nat) : List (Nat × α) → List (Nat × α)
  | [] => []
  | (k', v') :: rest => if k' = k then rest else (k', v') :: aerase k rest

/-! ## Data model (`src/model/__init__.py`) -/

/-- A virtual machine request (`model.Vm`): `CPU` is a core count, `RAM` a
size, `GPU` an optional `(compute-units, memory-blocks)` profile.  `vid`
is the Python object identity. -/
structure Vm where
  vid : Nat
  name : String
  CPU : Nat
  RAM : Nat
  GPU : Option (Nat × Nat)
deriving DecidableEq

/-- A physical machine (`model.Pm`): `CPU` is the per-core frequency
vector, `GPU` the list of `(units, blocks)` capacities of its physical
GPUs (`VmmSpaceShared.__post_init__` iterates it, so it is a list, possibly
empty). -/
structure Pm where
  CPU : List Nat
  RAM : Nat
  GPU : List (Nat × Nat)
deriving DecidableEq

/-! ## Deterministic model of CPython small-int set iteration -/

/-- Ascending enumeration of a finite set of naturals; models the order in
which CPython iterates a set of small non-negative ints. -/
def ascList (s : Finset ℕ) : List ℕ :=
  (List.range (s.sup id + 1)).filter (fun x => decide (x ∈ s))

/-- The set of the `k` smallest elements of `s`; models
`{s.pop() for _ in range(k)}` on a CPython small-int set. -/
def takeMin (s : Finset ℕ) (k : ℕ) : Finset ℕ :=
  ((ascList s).take k).toFinset

/-! ## Space-shared hypervisor (`policy/vmm.py`, class `VmmSpaceShared`) -/

/-- Hypervisor ledger: mirrors the mutable attributes set up in
`VmmSpaceShared.__post_init__` (plus `_guests` from `policy.Vmm`). -/
structure VmmState where
  freeCpu : Finset ℕ
  vmCpu : List (Nat × Finset ℕ)
  freeRam : Nat
  freeGpu : List (Finset ℕ)
  vmGpu : List (Nat × (Nat × Finset ℕ))
  guests : List Vm
deriving DecidableEq

/-- `VmmSpaceShared.__post_init__`: all cores free, free RAM = host RAM,
every GPU block free. -/
def vmmInit (host : Pm) : VmmState :=
  { freeCpu := Finset.range host.CPU.length
    vmCpu := []
    freeRam := host.RAM
    freeGpu := host.GPU.map (fun p => Finset.range p.2)
    vmGpu := []
    guests := [] }

instance : Inhabited Pm := ⟨{ CPU := [], RAM := 0, GPU := [] }⟩

instance : Inhabited VmmState := ⟨vmmInit { CPU := [], RAM := 0, GPU := [] }⟩

/-- `set(range(start, start + num_memory_blocks))`. -/
def blockRange (start blocks : Nat) : Finset ℕ := Finset.Ico start (start + blocks)

/-- `VmmSpaceShared.find_gpu_blocks(profile, gpu)`: for each candidate
start in the free set (in iteration order), keep the contiguous range of
`profile`'s block count whenever it is a subset of the free set. -/
def findGpuBlocks (profile : Nat × Nat) (gpu : Finset ℕ) : List (Finset ℕ) :=
  ((ascList gpu).filter (fun start => decide (blockRange start profile.2 ⊆ gpu))).map
    (fun start => blockRange start profile.2)

/-- `VmmSpaceShared.has_capacity(vm)`: the `(cpuOk, ramOk, gpuOk)` triple. -/
def hasCapacity (s : VmmState) (vm : Vm) : Bool × Bool × Bool :=
  (decide (vm.CPU ≤ s.freeCpu.card),
   decide (vm.RAM ≤ s.freeRam),
   match vm.GPU with
   | none => true
   | some profile => s.freeGpu.any (fun gpu => !(findGpuBlocks profile gpu).isEmpty))

/-- `all(self.has_capacity(vm))`. -/
def allCapacity (s : VmmState) (vm : Vm) : Bool :=
  (hasCapacity s vm).1 && (hasCapacity s vm).2.1 && (hasCapacity s vm).2.2

/-- The `for gpu_idx, free_gpu in enumerate(self._free_gpu)` search in
`VmmSpaceShared.allocate`: first GPU index whose `find_gpu_blocks` result
is non-empty, paired with the first valid range (`all_gpu_blocks.pop(0)`). -/
def firstGpuFit (profile : Nat × Nat) : List (Finset ℕ) → Option (Nat × Finset ℕ)
  | [] => none
  | gpu :: rest =>
    match findGpuBlocks profile gpu with
    | [] => (firstGpuFit profile rest).map (fun p => (p.1 + 1, p.2))
    | b :: _ => some (0, b)

/-- One iteration of the `for vm in vms` loop of `VmmSpaceShared.allocate`.
Returns the new ledger, the boolean appended to `results`, and whether
`vm.turn_on()` was called. -/
def allocStep (s : VmmState) (vm : Vm) : VmmState × Bool × Bool :=
  if allCapacity s vm then
    let popped := takeMin s.freeCpu vm.CPU
    let afterGpu : List (Finset ℕ) × List (Nat × (Nat × Finset ℕ)) :=
      match vm.GPU with
      | none => (s.freeGpu, s.vmGpu)
      | some profile =>
        match firstGpuFit profile s.freeGpu with
        | none => (s.freeGpu, s.vmGpu)
        | some (idx, blocks) =>
          (s.freeGpu.set idx ((s.freeGpu.getD idx ∅) \ blocks),
           ainsert vm.vid (idx, blocks) s.vmGpu)
    ({ freeCpu := s.freeCpu \ popped
       vmCpu := ainsert vm.vid popped s.vmCpu
       freeRam := s.freeRam - vm.RAM
       freeGpu := afterGpu.1
       vmGpu := afterGpu.2
       guests := s.guests ++ [vm] }, true, true)
  else (s, false, false)

/-- `self._guests.remove(vm)` (removes the first guest with `vm`'s
identity). -/
def eraseFirstVm (vid : Nat) : List Vm → List Vm
  | [] => []
  | g :: rest => if g.vid = vid then rest else g :: eraseFirstVm vid rest

/-- One iteration of the `for vm in vms` loop of
`VmmSpaceShared.deallocate`.  Returns the new ledger, the boolean appended
to `results`, and whether `vm.turn_off()` was called. -/
def deallocStep (s : VmmState) (vm : Vm) : VmmState × Bool × Bool :=
  if s.guests.any (fun g => g.vid = vm.vid) then
    let cores := (alookup vm.vid s.vmCpu).getD ∅
    let afterGpu : List (Finset ℕ) × List (Nat × (Nat × Finset ℕ)) :=
      match vm.GPU with
      | none => (s.freeGpu, s.vmGpu)
      | some _ =>
        let e := (alookup vm.vid s.vmGpu).getD (0, ∅)
        (s.freeGpu.set e.1 ((s.freeGpu.getD e.1 ∅) ∪ e.2),
         aerase vm.vid s.vmGpu)
    ({ freeCpu := s.freeCpu ∪ cores
       vmCpu := aerase vm.vid s.vmCpu
       freeRam := s.freeRam + vm.RAM
       freeGpu := afterGpu.1
       vmGpu := afterGpu.2
       guests := eraseFirstVm vm.vid s.guests }, true, true)
  else (s, false, false)

/-- `VmmSpaceShared.allocate(vms)`: process the VMs in order, collecting
the parallel boolean result vector. -/
def vmmAllocate (s : VmmState) : List Vm → VmmState × List Bool
  | [] => (s, [])
  | vm :: rest =>
    let r := allocStep s vm
    let rr := vmmAllocate r.1 rest
    (rr.1, r.2.1 :: rr.2)

/-- `VmmSpaceShared.deallocate(vms)`. -/
def vmmDeallocate (s : VmmState) : List Vm → VmmState × List Bool
  | [] => (s, [])
  | vm :: rest =>
    let r := deallocStep s vm
    let rr := vmmDeallocate r.1 rest
    (rr.1, r.2.1 :: rr.2)

/-! ## Ledger conservation (claim C1) -/

/-- Union of a list of block/core sets. -/
def unionList (l : List (Finset ℕ)) : Finset ℕ := l.foldr (· ∪ ·) ∅

/-- `parts` partitions `cap`: their union is `cap` and they are pairwise
disjoint. -/
def PartitionOf (cap : Finset ℕ) (parts : List (Finset ℕ)) : Prop :=
  unionList parts = cap ∧ List.Pairwise (fun a b => Disjoint a b) parts

instance (cap : Finset ℕ) (parts : List (Finset ℕ)) : Decidable (PartitionOf cap parts) := by
  unfold PartitionOf
  infer_instance

/-- The block sets recorded in `vmGpu` for physical GPU `i`. -/
def blocksAt (s : VmmState) (i : Nat) : List (Finset ℕ) :=
  (s.vmGpu.filter (fun e => e.2.1 == i)).map (fun e => e.2.2)

/-- The conservation property of claim C1: free cores plus the guests'
allocated core sets account for every host core; free RAM plus allocated
guests' RAM equals host RAM; for each physical GPU, the free block set
plus the blocks recorded in `vmGpu` partition the GPU's block capacity. -/
def conserves (host : Pm) (s : VmmState) : Prop :=
  s.freeCpu.card + (s.guests.map (fun g => ((alookup g.vid s.vmCpu).getD ∅).card)).sum
      = host.CPU.length
  ∧ s.freeRam + (s.guests.map Vm.RAM).sum = host.RAM
  ∧ ∀ i < host.GPU.length,
      PartitionOf (Finset.range (host.GPU.getD i (0, 0)).2)
        (s.freeGpu.getD i ∅ :: blocksAt s i)

instance (host : Pm) (s : VmmState) : Decidable (conserves host s) := by
  unfold conserves
  infer_instance

/-- Hypervisor states reachable from a fresh ledger by `allocate` /
`deallocate` steps.  The side conditions model Python object identity:
an `allocate` step concerns a VM that is not currently hosted (each VM
object is deallocated before being allocated again), and a `deallocate`
argument sharing its identity with a guest is that guest. -/
inductive VmmReach (host : Pm) : VmmState → Prop where
  | init : VmmReach host (vmmInit host)
  | alloc (s : VmmState) (vm : Vm) (hs : VmmReach host s)
      (hfresh : vm.vid ∉ s.guests.map Vm.vid) :
      VmmReach host (allocStep s vm).1
  | dealloc (s : VmmState) (vm : Vm) (hs : VmmReach host s)
      (hid : ∀ g ∈ s.guests, g.vid = vm.vid → g = vm) :
      VmmReach host (deallocStep s vm).1

/-! ### Helper lemmas: set enumeration -/

theorem mem_ascList {s : Finset ℕ} {x : ℕ} : x ∈ ascList s ↔ x ∈ s := by
  unfold ascList
  simp only [List.mem_filter, List.mem_range, decide_eq_true_eq]
  constructor
  · exact fun h => h.2
  · intro hx
    have hle : id x ≤ s.sup id := Finset.le_sup hx
    exact ⟨Nat.lt_succ_of_le hle, hx⟩

theorem ascList_nodup (s : Finset ℕ) : (ascList s).Nodup :=
  (List.nodup_range _).filter _

theorem takeMin_subset (s : Finset ℕ) (k : ℕ) : takeMin s k ⊆ s := by
  intro x hx
  have hx' : x ∈ (ascList s).take k := List.mem_toFinset.mp hx
  exact mem_ascList.mp (List.mem_of_mem_take hx')

/-! ### Helper lemmas: unions and partitions -/

theorem unionList_nil : unionList [] = ∅ := rfl

theorem unionList_cons (a : Finset ℕ) (l : List (Finset ℕ)) :
    unionList (a :: l) = a ∪ unionList l := rfl

theorem unionList_append (l₁ l₂ : List (Finset ℕ)) :
    unionList (l₁ ++ l₂) = unionList l₁ ∪ unionList l₂ := by
  induction l₁ with
  | nil => simp [unionList_nil]
  | cons a l ih =>
    rw [List.cons_append, unionList_cons, unionList_cons, ih, Finset.union_assoc]

theorem unionList_perm {l l' : List (Finset ℕ)} (h : l.Perm l') :
    unionList l = unionList l' := by
  induction h with
  | nil => rfl
  | cons a _ ih => rw [unionList_cons, unionList_cons, ih]
  | swap a b l =>
    rw [unionList_cons, unionList_cons, unionList_cons, unionList_cons,
      Finset.union_left_comm]
  | trans _ _ ih₁ ih₂ => rw [ih₁, ih₂]

theorem disjoint_unionList {a : Finset ℕ} {l : List (Finset ℕ)}
    (h : ∀ b ∈ l, Disjoint a b) : Disjoint a (unionList l) := by
  induction l with
  | nil => simp [unionList_nil]
  | cons b l ih =>
    rw [unionList_cons, Finset.disjoint_union_right]
    exact ⟨h b (by simp), ih fun c hc => h c (by simp [hc])⟩

theorem card_unionList {l : List (Finset ℕ)}
    (h : l.Pairwise (fun a b => Disjoint a b)) :
    (unionList l).card = (l.map Finset.card).sum := by
  induction l with
  | nil => simp [unionList_nil]
  | cons a l ih =>
    rcases List.pairwise_cons.mp h with ⟨ha, hl⟩
    rw [unionList_cons, List.map_cons, List.sum_cons,
      Finset.card_union_of_disjoint (disjoint_unionList ha), ih hl]

theorem partitionOf_perm {cap : Finset ℕ} {l l' : List (Finset ℕ)} (h : l.Perm l')
    (hp : PartitionOf cap l) : PartitionOf cap l' := by
  refine ⟨(unionList_perm h).symm.trans hp.1, ?_⟩
  exact (List.Perm.pairwise_iff (fun hd => Disjoint.symm hd) h).mp hp.2

theorem partitionOf_split {cap a p : Finset ℕ} {parts : List (Finset ℕ)}
    (hp : p ⊆ a) (h : PartitionOf cap (a :: parts)) :
    PartitionOf cap ((a \ p) :: (parts ++ [p])) := by
  rcases h with ⟨hu, hd⟩
  rcases List.pairwise_cons.mp hd with ⟨had, hpd⟩
  constructor
  · rw [unionList_cons] at hu
    rw [unionList_cons, unionList_append, unionList_cons, unionList_nil,
      Finset.union_empty, ← Finset.union_assoc,
      Finset.union_comm (a \ p) (unionList parts), Finset.union_assoc,
      Finset.sdiff_union_of_subset hp, Finset.union_comm]
    exact hu
  · rw [List.pairwise_cons]
    constructor
    · intro b hb
      rcases List.mem_append.mp hb with hb | hb
      · exact (had b hb).mono_left Finset.sdiff_subset
      · simp only [List.mem_singleton] at hb
        subst hb
        exact Finset.sdiff_disjoint
    · rw [List.pairwise_append]
      refine ⟨hpd, List.pairwise_singleton _ _, ?_⟩
      intro b hb q hq
      simp only [List.mem_singleton] at hq
      subst hq
      exact Disjoint.symm ((had b hb).mono_left hp)

theorem partitionOf_merge {cap a b : Finset ℕ} {parts : List (Finset ℕ)}
    (h : PartitionOf cap (a :: b :: parts)) :
    PartitionOf cap ((a ∪ b) :: parts) := by
  rcases h with ⟨hu, hd⟩
  rcases List.pairwise_cons.mp hd with ⟨hab, hd'⟩
  rcases List.pairwise_cons.mp hd' with ⟨hbd, hpd⟩
  constructor
  · rw [unionList_cons, unionList_cons] at hu
    rw [unionList_cons, Finset.union_assoc]
    exact hu
  · rw [List.pairwise_cons]
    refine ⟨?_, hpd⟩
    intro c hc
    rw [Finset.disjoint_union_left]
    exact ⟨hab c (by simp [hc]), hbd c hc⟩

/-! ### Helper lemmas: association lists -/

theorem alookup_append_right {α : Type} {k : Nat} {l₁ l₂ : List (Nat × α)}
    (h : k ∉ l₁.map Prod.fst) : alookup k (l₁ ++ l₂) = alookup k l₂ := by
  induction l₁ with
  | nil => rfl
  | cons e l ih =>
    simp only [List.map_cons, List.mem_cons, not_or] at h
    have hne : ¬ e.1 = k := fun he => h.1 he.symm
    simp only [List.cons_append, alookup, if_neg hne]
    exact ih h.2

theorem ainsert_fresh {α : Type} {k : Nat} {v : α} {l : List (Nat × α)}
    (h : k ∉ l.map Prod.fst) : ainsert k v l = l ++ [(k, v)] := by
  induction l with
  | nil => rfl
  | cons e l ih =>
    simp only [List.map_cons, List.mem_cons, not_or] at h
    have hne : ¬ e.1 = k := fun he => h.1 he.symm
    simp only [ainsert, if_neg hne, List.cons_append]
    rw [ih h.2]

theorem aerase_append {α : Type} {k : Nat} {v : α} {l₁ l₂ : List (Nat × α)}
    (h : k ∉ l₁.map Prod.fst) : aerase k (l₁ ++ (k, v) :: l₂) = l₁ ++ l₂ := by
  induction l₁ with
  | nil => simp [aerase]
  | cons e l ih =>
    simp only [List.map_cons, List.mem_cons, not_or] at h
    have hne : ¬ e.1 = k := fun he => h.1 he.symm
    simp only [List.cons_append, aerase, if_neg hne]
    exact congrArg (fun t => (e.1, e.2) :: t) (ih h.2)

theorem eraseFirstVm_append {vid : Nat} {g : Vm} {l₁ l₂ : List Vm}
    (h : vid ∉ l₁.map Vm.vid) (hg : g.vid = vid) :
    eraseFirstVm vid (l₁ ++ g :: l₂) = l₁ ++ l₂ := by
  induction l₁ with
  | nil => simp [eraseFirstVm, hg]
  | cons e l ih =>
    simp only [List.map_cons, List.mem_cons, not_or] at h
    have hne : ¬ e.vid = vid := fun he => h.1 he.symm
    simp only [List.cons_append, eraseFirstVm, if_neg hne]
    exact congrArg (fun t => e :: t) (ih h.2)

theorem guests_lookup_map {m : List (Nat × Finset ℕ)} {gs : List Vm}
    (hkeys : m.map Prod.fst = gs.map Vm.vid) (hnd : (m.map Prod.fst).Nodup) :
    gs.map (fun g => (alookup g.vid m).getD ∅) = m.map Prod.snd := by
  induction m generalizing gs with
  | nil =>
    cases gs with
    | nil => rfl
    | cons g gs => simp at hkeys
  | cons e m ih =>
    cases gs with
    | nil => simp at hkeys
    | cons g gs =>
      simp only [List.map_cons, List.cons.injEq] at hkeys
      rcases hkeys with ⟨hk, hks⟩
      simp only [List.map_cons, List.nodup_cons] at hnd
      have hhead : (alookup g.vid (e :: m)).getD ∅ = e.2 := by
        simp [alookup, hk]
      have htail : gs.map (fun g => (alookup g.vid (e :: m)).getD ∅)
          = m.map Prod.snd := by
        have hsame : gs.map (fun g => (alookup g.vid (e :: m)).getD ∅)
            = gs.map (fun g => (alookup g.vid m).getD ∅) := by
          apply List.map_congr_left
          intro g' hg'
          have hne : ¬ e.1 = g'.vid := by
            intro he
            apply hnd.1
            rw [hks, he]
            exact List.mem_map_of_mem Vm.vid hg'
          simp [alookup, if_neg hne]
        rw [hsame]
        exact ih hks hnd.2
      rw [List.map_cons, List.map_cons, hhead, htail]

theorem map_split_of_map_eq {α β γ : Type} {f : α → γ} {g : β → γ} {l : List α}
    {m : List β} (h : l.map f = m.map g) {l₁ : List α} {x : α} {l₂ : List α}
    (hsplit : l = l₁ ++ x :: l₂) :
    ∃ m₁ y m₂, m = m₁ ++ y :: m₂ ∧ l₁.map f = m₁.map g ∧ f x = g y ∧ l₂.map f = m₂.map g := by
  subst hsplit
  induction l₁ generalizing m with
  | nil =>
    cases m with
    | nil => simp at h
    | cons y m =>
      simp only [List.nil_append, List.map_cons, List.cons.injEq] at h
      exact ⟨[], y, m, rfl, rfl, h.1, h.2⟩
  | cons a l ih =>
    cases m with
    | nil => simp at h
    | cons y m =>
      simp only [List.cons_append, List.map_cons, List.cons.injEq] at h
      rcases ih h.2 with ⟨m₁, z, m₂, hm, h₁, h₂, h₃⟩
      exact ⟨y :: m₁, z, m₂, by rw [hm, List.cons_append], by simp [h.1, h₁], h₂, h₃⟩

/-! ### Helper lemmas: the GPU block search -/

theorem mem_findGpuBlocks {profile : Nat × Nat} {gpu b : Finset ℕ} :
    b ∈ findGpuBlocks profile gpu ↔
      ∃ s ∈ gpu, b = blockRange s profile.2 ∧ blockRange s profile.2 ⊆ gpu := by
  unfold findGpuBlocks
  simp only [List.mem_map, List.mem_filter, decide_eq_true_eq, mem_ascList]
  constructor
  · rintro ⟨s, ⟨hs, hsub⟩, rfl⟩
    exact ⟨s, hs, rfl, hsub⟩
  · rintro ⟨s, hs, rfl, hsub⟩
    exact ⟨s, ⟨hs, hsub⟩, rfl⟩

theorem mem_findGpuBlocks_subset {profile : Nat × Nat} {gpu b : Finset ℕ}
    (h : b ∈ findGpuBlocks profile gpu) : b ⊆ gpu := by
  rcases mem_findGpuBlocks.mp h with ⟨s, _, rfl, hsub⟩
  exact hsub

theorem firstGpuFit_isSome {profile : Nat × Nat} {l : List (Finset ℕ)} :
    (l.any fun gpu => !(findGpuBlocks profile gpu).isEmpty) = true ↔
      (firstGpuFit profile l).isSome := by
  induction l with
  | nil => simp [firstGpuFit]
  | cons gpu rest ih =>
    simp only [List.any_cons, Bool.or_eq_true, firstGpuFit]
    cases hfind : findGpuBlocks profile gpu with
    | nil => simpa [hfind] using ih
    | cons b bs => simp [hfind]

theorem firstGpuFit_spec {profile : Nat × Nat} {l : List (Finset ℕ)} {i : Nat}
    {b : Finset ℕ} (h : firstGpuFit profile l = some (i, b)) :
    i < l.length ∧ b ∈ findGpuBlocks profile (l.getD i ∅) := by
  induction l generalizing i with
  | nil => simp [firstGpuFit] at h
  | cons gpu rest ih =>
    simp only [firstGpuFit] at h
    cases hfind : findGpuBlocks profile gpu with
    | nil =>
      rw [hfind] at h
      cases hfit : firstGpuFit profile rest with
      | none => rw [hfit] at h; simp at h
      | some p =>
        rw [hfit] at h
        simp only [Option.map_some] at h
        cases h
        rcases ih hfit with ⟨hlt, hmem⟩
        exact ⟨Nat.succ_lt_succ hlt, by simpa using hmem⟩
    | cons c cs =>
      rw [hfind] at h
      simp only [Option.some.injEq] at h
      cases h
      refine ⟨Nat.succ_pos _, ?_⟩
      simp [hfind]

/-! ### Helper lemmas: list indexing -/

theorem getD_set_self {α : Type} {l : List α} {i : Nat} (h : i < l.length)
    {v d : α} : (l.set i v).getD i d = v := by
  induction l generalizing i with
  | nil => simp at h
  | cons a rest ih =>
    cases i with
    | zero => rfl
    | succ j => exact ih (Nat.lt_of_succ_lt_succ h)

theorem getD_set_ne {α : Type} {l : List α} {i j : Nat} (h : ¬ i = j) {v d : α} :
    (l.set i v).getD j d = l.getD j d := by
  induction l generalizing i j with
  | nil => rfl
  | cons a rest ih =>
    cases i with
    | zero =>
      cases j with
      | zero => exact absurd rfl h
      | succ k => rfl
    | succ i' =>
      cases j with
      | zero => rfl
      | succ k => exact ih fun he => h (congrArg Nat.succ he)

/-! ### Step characterizations -/

theorem allocStep_not_cap {s : VmmState} {vm : Vm} (h : ¬ allCapacity s vm = true) :
    allocStep s vm = (s, false, false) := by
  simp [allocStep, h]

theorem allocStep_gpu_none {s : VmmState} {vm : Vm} (hcap : allCapacity s vm = true)
    (hg : vm.GPU = none) :
    allocStep s vm =
      ({ freeCpu := s.freeCpu \ takeMin s.freeCpu vm.CPU
         vmCpu := ainsert vm.vid (takeMin s.freeCpu vm.CPU) s.vmCpu
         freeRam := s.freeRam - vm.RAM
         freeGpu := s.freeGpu
         vmGpu := s.vmGpu
         guests := s.guests ++ [vm] }, true, true) := by
  simp [allocStep, hcap, hg]

theorem allocStep_gpu_some {s : VmmState} {vm : Vm} {p : Nat × Nat} {i : Nat}
    {b : Finset ℕ} (hcap : allCapacity s vm = true) (hg : vm.GPU = some p)
    (hfit : firstGpuFit p s.freeGpu = some (i, b)) :
    allocStep s vm =
      ({ freeCpu := s.freeCpu \ takeMin s.freeCpu vm.CPU
         vmCpu := ainsert vm.vid (takeMin s.freeCpu vm.CPU) s.vmCpu
         freeRam := s.freeRam - vm.RAM
         freeGpu := s.freeGpu.set i ((s.freeGpu.getD i ∅) \ b)
         vmGpu := ainsert vm.vid (i, b) s.vmGpu
         guests := s.guests ++ [vm] }, true, true) := by
  simp [allocStep, hcap, hg, hfit]

theorem deallocStep_not_guest {s : VmmState} {vm : Vm}
    (h : ¬ (s.guests.any fun g => g.vid = vm.vid) = true) :
    deallocStep s vm = (s, false, false) := by
  simp only [deallocStep, if_neg h]

theorem deallocStep_gpu_none {s : VmmState} {vm : Vm}
    (hmem : (s.guests.any fun g => g.vid = vm.vid) = true) (hg : vm.GPU = none) :
    deallocStep s vm =
      ({ freeCpu := s.freeCpu ∪ (alookup vm.vid s.vmCpu).getD ∅
         vmCpu := aerase vm.vid s.vmCpu
         freeRam := s.freeRam + vm.RAM
         freeGpu := s.freeGpu
         vmGpu := s.vmGpu
         guests := eraseFirstVm vm.vid s.guests }, true, true) := by
  simp [deallocStep, hmem, hg]

theorem deallocStep_gpu_some {s : VmmState} {vm : Vm} {p : Nat × Nat}
    (hmem : (s.guests.any fun g => g.vid = vm.vid) = true) (hg : vm.GPU = some p) :
    deallocStep s vm =
      ({ freeCpu := s.freeCpu ∪ (alookup vm.vid s.vmCpu).getD ∅
         vmCpu := aerase vm.vid s.vmCpu
         freeRam := s.freeRam + vm.RAM
         freeGpu := s.freeGpu.set ((alookup vm.vid s.vmGpu).getD (0, ∅)).1
           ((s.freeGpu.getD ((alookup vm.vid s.vmGpu).getD (0, ∅)).1 ∅)
             ∪ ((alookup vm.vid s.vmGpu).getD (0, ∅)).2)
         vmGpu := aerase vm.vid s.vmGpu
         guests := eraseFirstVm vm.vid s.guests }, true, true) := by
  simp [deallocStep, hmem, hg]

/-! ### The strengthened ledger invariant -/

/-- Strengthened hypervisor invariant; the conservation property of claim
C1 is a consequence (`vmmInv_conserves`). -/
structure VmmInv (host : Pm) (s : VmmState) : Prop where
  guestsNodup : (s.guests.map Vm.vid).Nodup
  cpuKeys : s.vmCpu.map Prod.fst = s.guests.map Vm.vid
  cpuPart : PartitionOf (Finset.range host.CPU.length)
    (s.freeCpu :: s.vmCpu.map Prod.snd)
  ram : s.freeRam + (s.guests.map Vm.RAM).sum = host.RAM
  gpuLen : s.freeGpu.length = host.GPU.length
  gpuKeys : s.vmGpu.map Prod.fst = (s.guests.filter fun g => g.GPU.isSome).map Vm.vid
  gpuIdx : ∀ e ∈ s.vmGpu, e.2.1 < host.GPU.length
  gpuPart : ∀ i < host.GPU.length,
      PartitionOf (Finset.range (host.GPU.getD i (0, 0)).2)
        (s.freeGpu.getD i ∅ :: blocksAt s i)

theorem getD_map_lt {α β : Type} (f : α → β) {l : List α} {i : Nat}
    (h : i < l.length) (d : β) (d' : α) : (l.map f).getD i d = f (l.getD i d') := by
  induction l generalizing i with
  | nil => simp at h
  | cons a rest ih =>
    cases i with
    | zero => rfl
    | succ j => exact ih (Nat.lt_of_succ_lt_succ h)

theorem vmmInv_init (host : Pm) : VmmInv host (vmmInit host) := by
  refine ⟨?_, ?_, ?_, ?_, ?_, ?_, ?_, ?_⟩
  · simp [vmmInit]
  · simp [vmmInit]
  · refine ⟨?_, ?_⟩
    · simp [vmmInit, unionList_cons, unionList_nil]
    · simp [vmmInit]
  · simp [vmmInit]
  · simp [vmmInit]
  · simp [vmmInit]
  · simp [vmmInit]
  · intro i hi
    refine ⟨?_, ?_⟩
    · simp only [vmmInit, blocksAt, List.filter_nil, List.map_nil, unionList_cons,
        unionList_nil, Finset.union_empty]
      rw [getD_map_lt (fun p => Finset.range p.2) hi ∅ (0, 0)]
    · simp [vmmInit, blocksAt]

theorem vmmInv_alloc {host : Pm} {s : VmmState} {vm : Vm} (inv : VmmInv host s)
    (hfresh : vm.vid ∉ s.guests.map Vm.vid) : VmmInv host (allocStep s vm).1 := by
  by_cases hcap : allCapacity s vm = true
  case neg =>
    rw [allocStep_not_cap hcap]
    exact inv
  case pos =>
    have hcap' := hcap
    simp only [allCapacity, Bool.and_eq_true] at hcap'
    obtain ⟨⟨hcpu, hram⟩, hgpu⟩ := hcap'
    simp only [hasCapacity, decide_eq_true_eq] at hcpu hram
    have hfreshCpu : vm.vid ∉ s.vmCpu.map Prod.fst := by
      rw [inv.cpuKeys]; exact hfresh
    have hinsCpu : ainsert vm.vid (takeMin s.freeCpu vm.CPU) s.vmCpu
        = s.vmCpu ++ [(vm.vid, takeMin s.freeCpu vm.CPU)] := ainsert_fresh hfreshCpu
    have hnd' : ((s.guests ++ [vm]).map Vm.vid).Nodup := by
      rw [List.map_append, List.map_cons, List.map_nil, List.nodup_append]
      refine ⟨inv.guestsNodup, List.nodup_singleton _, ?_⟩
      intro a ha hb
      simp only [List.mem_singleton] at hb
      subst hb
      exact hfresh ha
    have hkeys' : (s.vmCpu ++ [(vm.vid, takeMin s.freeCpu vm.CPU)]).map Prod.fst
        = (s.guests ++ [vm]).map Vm.vid := by
      rw [List.map_append, List.map_append, inv.cpuKeys]
      rfl
    have hpart' : PartitionOf (Finset.range host.CPU.length)
        ((s.freeCpu \ takeMin s.freeCpu vm.CPU) ::
          ((s.vmCpu ++ [(vm.vid, takeMin s.freeCpu vm.CPU)]).map Prod.snd)) := by
      rw [List.map_append]
      exact partitionOf_split (takeMin_subset _ _) inv.cpuPart
    have hram' : s.freeRam - vm.RAM + ((s.guests ++ [vm]).map Vm.RAM).sum = host.RAM := by
      rw [List.map_append, List.sum_append]
      have := inv.ram
      simp only [List.map_cons, List.map_nil, List.sum_cons, List.sum_nil]
      omega
    cases hg : vm.GPU with
    | none =>
      rw [allocStep_gpu_none hcap hg]
      refine ⟨?_, ?_, ?_, ?_, ?_, ?_, ?_, ?_⟩
      · dsimp only
        exact hnd'
      · dsimp only
        rw [hinsCpu]
        exact hkeys'
      · dsimp only
        rw [hinsCpu]
        exact hpart'
      · dsimp only
        exact hram'
      · dsimp only
        exact inv.gpuLen
      · dsimp only
        rw [List.filter_append]
        simp [hg, inv.gpuKeys]
      · dsimp only
        exact inv.gpuIdx
      · intro i hi
        have := inv.gpuPart i hi
        simpa [blocksAt] using this
    | some p =>
      simp only [hasCapacity, hg] at hgpu
      have hsome : (firstGpuFit p s.freeGpu).isSome := firstGpuFit_isSome.mp hgpu
      obtain ⟨⟨i, b⟩, hfit⟩ := Option.isSome_iff_exists.mp hsome
      obtain ⟨hilt, hbmem⟩ := firstGpuFit_spec hfit
      have hbsub : b ⊆ s.freeGpu.getD i ∅ := mem_findGpuBlocks_subset hbmem
      have hfreshGpu : vm.vid ∉ s.vmGpu.map Prod.fst := by
        rw [inv.gpuKeys]
        intro hmem
        have hsubl : (s.guests.filter fun g => g.GPU.isSome).Sublist s.guests :=
          List.filter_sublist _
        exact hfresh ((hsubl.map Vm.vid).mem hmem)
      have hinsGpu : ainsert vm.vid (i, b) s.vmGpu = s.vmGpu ++ [(vm.vid, (i, b))] :=
        ainsert_fresh hfreshGpu
      rw [allocStep_gpu_some hcap hg hfit]
      refine ⟨?_, ?_, ?_, ?_, ?_, ?_, ?_, ?_⟩
      · dsimp only
        exact hnd'
      · dsimp only
        rw [hinsCpu]
        exact hkeys'
      · dsimp only
        rw [hinsCpu]
        exact hpart'
      · dsimp only
        exact hram'
      · dsimp only
        simp only [List.length_set]
        exact inv.gpuLen
      · dsimp only
        rw [hinsGpu, List.map_append, List.filter_append, List.map_append, inv.gpuKeys]
        simp [hg]
      · dsimp only
        intro e he
        rw [hinsGpu] at he
        rcases List.mem_append.mp he with he | he
        · exact inv.gpuIdx e he
        · simp only [List.mem_singleton] at he
          subst he
          simpa [inv.gpuLen] using hilt
      · intro j hj
        by_cases hij : i = j
        · subst hij
          have hgetD : (s.freeGpu.set i ((s.freeGpu.getD i ∅) \ b)).getD i ∅
              = (s.freeGpu.getD i ∅) \ b := getD_set_self hilt
          have hblocks : blocksAt (allocStep s vm).1 i = blocksAt s i ++ [b] := by
            rw [allocStep_gpu_some hcap hg hfit]
            simp only [blocksAt, hinsGpu, List.filter_append, List.map_append]
            simp
          rw [allocStep_gpu_some hcap hg hfit] at hblocks
          dsimp only at hblocks ⊢
          rw [hblocks, hgetD]
          exact partitionOf_split hbsub (inv.gpuPart i hj)
        · have hgetD : (s.freeGpu.set i ((s.freeGpu.getD i ∅) \ b)).getD j ∅
              = s.freeGpu.getD j ∅ := getD_set_ne hij
          have hblocks : blocksAt (allocStep s vm).1 j = blocksAt s j := by
            rw [allocStep_gpu_some hcap hg hfit]
            simp only [blocksAt, hinsGpu, List.filter_append, List.map_append]
            simp [hij]
          rw [allocStep_gpu_some hcap hg hfit] at hblocks
          dsimp only at hblocks ⊢
          rw [hblocks, hgetD]
          exact inv.gpuPart j hj

theorem exists_first_occurrence {gs : List Vm} {vid : Nat}
    (h : ∃ g ∈ gs, g.vid = vid) :
    ∃ gl₁ g gl₂, gs = gl₁ ++ g :: gl₂ ∧ g.vid = vid ∧ vid ∉ gl₁.map Vm.vid := by
  induction gs with
  | nil => simp at h
  | cons a rest ih =>
    by_cases ha : a.vid = vid
    · exact ⟨[], a, rest, rfl, ha, by simp⟩
    · have h' : ∃ g ∈ rest, g.vid = vid := by
        rcases h with ⟨g, hg, hvid⟩
        rcases List.mem_cons.mp hg with rfl | hg'
        · exact absurd hvid ha
        · exact ⟨g, hg', hvid⟩
      rcases ih h' with ⟨gl₁, g, gl₂, hsplit, hgvid, hnot⟩
      refine ⟨a :: gl₁, g, gl₂, by rw [hsplit, List.cons_append], hgvid, ?_⟩
      simp only [List.map_cons, List.mem_cons, not_or]
      exact ⟨fun he => ha he.symm, hnot⟩

theorem vmmInv_dealloc {host : Pm} {s : VmmState} {vm : Vm} (inv : VmmInv host s)
    (hid : ∀ g ∈ s.guests, g.vid = vm.vid → g = vm) :
    VmmInv host (deallocStep s vm).1 := by
  by_cases hmem : (s.guests.any fun g => g.vid = vm.vid) = true
  case neg =>
    rw [deallocStep_not_guest hmem]
    exact inv
  case pos =>
    have hex : ∃ g ∈ s.guests, g.vid = vm.vid := by
      simpa using hmem
    rcases exists_first_occurrence hex with ⟨gl₁, g, gl₂, hsplit, hgvid, hnot1⟩
    have hgvm : g = vm := hid g (by rw [hsplit]; simp) hgvid
    subst hgvm
    have hvidsplit : s.guests.map Vm.vid
        = gl₁.map Vm.vid ++ g.vid :: gl₂.map Vm.vid := by
      rw [hsplit]
      simp
    have hnd := inv.guestsNodup
    rw [hvidsplit] at hnd
    have hnot2 : g.vid ∉ gl₂.map Vm.vid :=
      (List.nodup_cons.mp (List.nodup_append.mp hnd).2.1).1
    have hndAB : (gl₁.map Vm.vid ++ gl₂.map Vm.vid).Nodup := by
      rcases List.nodup_append.mp hnd with ⟨h₁, h₂, hdisj⟩
      rw [List.nodup_append]
      refine ⟨h₁, (List.nodup_cons.mp h₂).2, ?_⟩
      intro a ha hb
      exact hdisj ha (List.mem_cons_of_mem _ hb)
    -- split the CPU map in parallel with the guest list
    rcases map_split_of_map_eq inv.cpuKeys.symm hsplit
      with ⟨m₁, y, m₂, hmsplit, hk₁, hk₂, hk₃⟩
    obtain ⟨k, cores⟩ := y
    simp only at hk₂
    subst hk₂
    have hnotm₁ : g.vid ∉ m₁.map Prod.fst := by
      rw [← hk₁]
      exact hnot1
    have halo : alookup g.vid s.vmCpu = some cores := by
      rw [hmsplit, alookup_append_right hnotm₁]
      simp [alookup]
    have haerase : aerase g.vid s.vmCpu = m₁ ++ m₂ := by
      rw [hmsplit]
      exact aerase_append hnotm₁
    have herasevm : eraseFirstVm g.vid s.guests = gl₁ ++ gl₂ := by
      rw [hsplit]
      exact eraseFirstVm_append hnot1 rfl
    have hkeys' : (m₁ ++ m₂).map Prod.fst = (gl₁ ++ gl₂).map Vm.vid := by
      rw [List.map_append, List.map_append, hk₁, hk₃]
    have hnd' : ((gl₁ ++ gl₂).map Vm.vid).Nodup := by
      rw [List.map_append]
      exact hndAB
    have hpart' : PartitionOf (Finset.range host.CPU.length)
        ((s.freeCpu ∪ cores) :: (m₁ ++ m₂).map Prod.snd) := by
      have hold := inv.cpuPart
      rw [hmsplit, List.map_append, List.map_cons] at hold
      have hperm : (s.freeCpu :: (m₁.map Prod.snd ++ cores :: m₂.map Prod.snd)).Perm
          (s.freeCpu :: cores :: (m₁.map Prod.snd ++ m₂.map Prod.snd)) :=
        List.Perm.cons _ List.perm_middle
      have := partitionOf_perm hperm hold
      rw [List.map_append]
      exact partitionOf_merge this
    have hram' : s.freeRam + g.RAM + ((gl₁ ++ gl₂).map Vm.RAM).sum = host.RAM := by
      have hold := inv.ram
      rw [hsplit] at hold
      simp only [List.map_append, List.sum_append, List.map_cons, List.sum_cons] at hold ⊢
      omega
    cases hg : g.GPU with
    | none =>
      have hfiltsplit : s.guests.filter (fun g => g.GPU.isSome)
          = gl₁.filter (fun g => g.GPU.isSome) ++ gl₂.filter (fun g => g.GPU.isSome) := by
        rw [hsplit, List.filter_append, List.filter_cons]
        simp [hg]
      rw [deallocStep_gpu_none hmem hg]
      refine ⟨?_, ?_, ?_, ?_, ?_, ?_, ?_, ?_⟩
      · dsimp only
        rw [herasevm]
        exact hnd'
      · dsimp only
        rw [haerase, herasevm]
        exact hkeys'
      · dsimp only
        rw [haerase, halo]
        simpa using hpart'
      · dsimp only
        rw [herasevm]
        exact hram'
      · dsimp only
        exact inv.gpuLen
      · dsimp only
        rw [herasevm, List.filter_append]
        have hold := inv.gpuKeys
        rw [hfiltsplit] at hold
        exact hold
      · dsimp only
        exact inv.gpuIdx
      · intro i hi
        have := inv.gpuPart i hi
        simpa [blocksAt] using this
    | some p =>
      have hfiltsplit : s.guests.filter (fun g => g.GPU.isSome)
          = gl₁.filter (fun g => g.GPU.isSome)
            ++ g :: gl₂.filter (fun g => g.GPU.isSome) := by
        rw [hsplit, List.filter_append, List.filter_cons]
        simp [hg]
      have hgk := inv.gpuKeys
      rw [hfiltsplit] at hgk
      rcases map_split_of_map_eq hgk.symm rfl
        with ⟨n₁, e, n₂, hnsplit, hn₁, hn₂, hn₃⟩
      obtain ⟨k2, idx, blocks⟩ := e
      simp only at hn₂
      subst hn₂
      have hnotn₁ : g.vid ∉ n₁.map Prod.fst := by
        rw [← hn₁]
        intro hmem'
        have hsubl : (gl₁.filter fun g => g.GPU.isSome).Sublist gl₁ :=
          List.filter_sublist _
        exact hnot1 ((hsubl.map Vm.vid).mem hmem')
      have halo2 : alookup g.vid s.vmGpu = some (idx, blocks) := by
        rw [hnsplit, alookup_append_right hnotn₁]
        simp [alookup]
      have haerase2 : aerase g.vid s.vmGpu = n₁ ++ n₂ := by
        rw [hnsplit]
        exact aerase_append hnotn₁
      have hmidmem : (g.vid, (idx, blocks)) ∈ s.vmGpu := by
        rw [hnsplit]
        exact List.mem_append.mpr (Or.inr (List.mem_cons_self _ _))
      have hidxlt : idx < host.GPU.length := inv.gpuIdx _ hmidmem
      have hidxlt' : idx < s.freeGpu.length := by
        rw [inv.gpuLen]
        exact hidxlt
      rw [deallocStep_gpu_some hmem hg]
      rw [halo2]
      simp only [Option.getD_some]
      refine ⟨?_, ?_, ?_, ?_, ?_, ?_, ?_, ?_⟩
      · dsimp only
        rw [herasevm]
        exact hnd'
      · dsimp only
        rw [haerase, herasevm]
        exact hkeys'
      · dsimp only
        rw [haerase, halo]
        simpa using hpart'
      · dsimp only
        rw [herasevm]
        exact hram'
      · dsimp only
        rw [List.length_set]
        exact inv.gpuLen
      · dsimp only
        rw [haerase2, herasevm, List.filter_append, List.map_append, List.map_append,
          hn₁, hn₃]
      · dsimp only
        intro e' he'
        rw [haerase2] at he'
        apply inv.gpuIdx
        rw [hnsplit]
        rcases List.mem_append.mp he' with he' | he'
        · exact List.mem_append.mpr (Or.inl he')
        · exact List.mem_append.mpr (Or.inr (List.mem_cons_of_mem _ he'))
      · intro i hi
        dsimp only
        rw [haerase2]
        by_cases hij : idx = i
        · subst hij
          have hgetD : (s.freeGpu.set idx ((s.freeGpu.getD idx ∅) ∪ blocks)).getD idx ∅
              = (s.freeGpu.getD idx ∅) ∪ blocks := getD_set_self hidxlt'
          have hba : blocksAt s idx
              = (n₁.filter (fun e => e.2.1 == idx)).map (fun e => e.2.2)
                ++ blocks :: (n₂.filter (fun e => e.2.1 == idx)).map (fun e => e.2.2) := by
            rw [blocksAt, hnsplit, List.filter_append, List.filter_cons]
            simp
          have hba' : ((n₁ ++ n₂).filter (fun e => e.2.1 == idx)).map (fun e => e.2.2)
              = (n₁.filter (fun e => e.2.1 == idx)).map (fun e => e.2.2)
                ++ (n₂.filter (fun e => e.2.1 == idx)).map (fun e => e.2.2) := by
            rw [List.filter_append, List.map_append]
          have hold := inv.gpuPart idx hi
          rw [hba] at hold
          have hperm : ((s.freeGpu.getD idx ∅) ::
              ((n₁.filter (fun e => e.2.1 == idx)).map (fun e => e.2.2)
                ++ blocks :: (n₂.filter (fun e => e.2.1 == idx)).map (fun e => e.2.2))).Perm
              ((s.freeGpu.getD idx ∅) :: blocks ::
                ((n₁.filter (fun e => e.2.1 == idx)).map (fun e => e.2.2)
                  ++ (n₂.filter (fun e => e.2.1 == idx)).map (fun e => e.2.2))) :=
            List.Perm.cons _ List.perm_middle
          have hmerged := partitionOf_merge (partitionOf_perm hperm hold)
          show PartitionOf _ (_ :: blocksAt
            { freeCpu := s.freeCpu ∪ cores
              vmCpu := m₁ ++ m₂
              freeRam := s.freeRam + g.RAM
              freeGpu := s.freeGpu.set idx ((s.freeGpu.getD idx ∅) ∪ blocks)
              vmGpu := n₁ ++ n₂
              guests := gl₁ ++ gl₂ } idx)
          rw [blocksAt]
          dsimp only
          rw [hba', hgetD]
          exact hmerged
        · have hgetD : (s.freeGpu.set idx ((s.freeGpu.getD idx ∅) ∪ blocks)).getD i ∅
              = s.freeGpu.getD i ∅ := getD_set_ne hij
          have hba : blocksAt s i
              = ((n₁ ++ n₂).filter (fun e => e.2.1 == i)).map (fun e => e.2.2) := by
            rw [blocksAt, hnsplit, List.filter_append, List.filter_cons,
              List.filter_append]
            simp [hij]
          have hold := inv.gpuPart i hi
          rw [hba] at hold
          show PartitionOf _ (_ :: blocksAt
            { freeCpu := s.freeCpu ∪ cores
              vmCpu := m₁ ++ m₂
              freeRam := s.freeRam + g.RAM
              freeGpu := s.freeGpu.set idx ((s.freeGpu.getD idx ∅) ∪ blocks)
              vmGpu := n₁ ++ n₂
              guests := gl₁ ++ gl₂ } i)
          rw [blocksAt]
          dsimp only
          rw [hgetD]
          exact hold

theorem vmmInv_conserves {host : Pm} {s : VmmState} (inv : VmmInv host s) :
    conserves host s := by
  refine ⟨?_, inv.ram, fun i hi => inv.gpuPart i hi⟩
  have hlook : s.guests.map (fun g => (alookup g.vid s.vmCpu).getD ∅)
      = s.vmCpu.map Prod.snd :=
    guests_lookup_map inv.cpuKeys (by rw [inv.cpuKeys]; exact inv.guestsNodup)
  have hmapcard : s.guests.map (fun g => ((alookup g.vid s.vmCpu).getD ∅).card)
      = (s.vmCpu.map Prod.snd).map Finset.card := by
    rw [← hlook, List.map_map]
    rfl
  rw [hmapcard]
  have hcard := card_unionList inv.cpuPart.2
  rw [inv.cpuPart.1, Finset.card_range] at hcard
  simp only [List.map_cons, List.sum_cons] at hcard
  omega

theorem vmmReach_inv {host : Pm} {s : VmmState} (h : VmmReach host s) :
    VmmInv host s := by
  induction h with
  | init => exact vmmInv_init host
  | alloc s vm _ hfresh ih => exact vmmInv_alloc ih hfresh
  | dealloc s vm _ hid ih => exact vmmInv_dealloc ih hid

/-- C1 (counterexample): conservation does not hold after arbitrary
sequences of `allocate` calls.  Allocating the same VM object (same
identity) twice without an intervening deallocate overwrites its `vmGpu`
entry, leaking its first block range: on a host with one GPU of two
blocks, after `allocate([vm, vm])` with `vm.GPU = (1, 1)` the free set and
the recorded blocks no longer partition the GPU's capacity. -/
theorem c1_counterexample :
    ¬ conserves { CPU := [1], RAM := 0, GPU := [(1, 2)] }
      (vmmAllocate (vmmInit { CPU := [1], RAM := 0, GPU := [(1, 2)] })
        [{ vid := 0, name := "vm0", CPU := 0, RAM := 0, GPU := some (1, 1) },
         { vid := 0, name := "vm0", CPU := 0, RAM := 0, GPU := some (1, 1) }]).1 := by
  decide

/-- C1 (amended): starting from a fresh `VmmSpaceShared` ledger, after any
sequence of single-VM allocate and deallocate steps in which no VM
currently in the guest list is re-allocated, the ledger conserves
resources: free cores plus the guests' allocated core-set sizes equal the
host core count, free RAM plus allocated guests' RAM equals host RAM, and
each physical GPU's free blocks together with the blocks recorded in
`vmGpu` partition that GPU's block capacity. -/
theorem c1_ledger_conservation {host : Pm} {s : VmmState} (h : VmmReach host s) :
    conserves host s :=
  vmmInv_conserves (vmmReach_inv h)

/-- Witness for C1: a concrete allocate-then-deallocate trace. -/
theorem c1_witness :
    conserves { CPU := [2, 3], RAM := 8, GPU := [(1, 4)] }
      (deallocStep
        (allocStep (vmmInit { CPU := [2, 3], RAM := 8, GPU := [(1, 4)] })
          { vid := 7, name := "vm7", CPU := 1, RAM := 4, GPU := some (1, 2) }).1
        { vid := 7, name := "vm7", CPU := 1, RAM := 4, GPU := some (1, 2) }).1 :=
  c1_ledger_conservation
    (VmmReach.dealloc _ _ (VmmReach.alloc _ _ VmmReach.init (by decide)) (by decide))

/-! ## Claim C3: the GPU capacity check -/

/-- C3 (confirmed): the third component of `has_capacity` is true iff the
VM has no GPU request or some physical GPU's free set has a starting index
whose contiguous range of the profile's block count is contained in that
free set; and `find_gpu_blocks` returns exactly the set of such ranges. -/
theorem c3_gpu_capacity_check (s : VmmState) (vm : Vm) (profile : Nat × Nat)
    (gpu b : Finset ℕ) :
    ((hasCapacity s vm).2.2 = true ↔
      vm.GPU = none ∨ ∃ units blocks, vm.GPU = some (units, blocks) ∧
        ∃ free ∈ s.freeGpu, ∃ start ∈ free, blockRange start blocks ⊆ free)
    ∧ (b ∈ findGpuBlocks profile gpu ↔
        ∃ start ∈ gpu, b = blockRange start profile.2
          ∧ blockRange start profile.2 ⊆ gpu) := by
  constructor
  · cases hg : vm.GPU with
    | none => simp [hasCapacity, hg]
    | some p =>
      obtain ⟨units, blocks⟩ := p
      simp only [hasCapacity, hg, List.any_eq_true, Bool.not_eq_eq_eq_not,
        Bool.not_false, Option.some.injEq, reduceCtorEq, false_or]
      constructor
      · rintro ⟨free, hfree, hne⟩
        rcases List.isEmpty_eq_false_iff_exists_mem.mp (by simpa using hne)
          with ⟨c, hc⟩
        rcases mem_findGpuBlocks.mp hc with ⟨start, hstart, _, hsub⟩
        exact ⟨units, blocks, rfl, free, hfree, start, hstart, hsub⟩
      · rintro ⟨u, bl, heq, free, hfree, start, hstart, hsub⟩
        injection heq with h1 h2
        subst h1
        subst h2
        refine ⟨free, hfree, ?_⟩
        have hmem : blockRange start blocks ∈ findGpuBlocks (units, blocks) free :=
          mem_findGpuBlocks.mpr ⟨start, hstart, rfl, hsub⟩
        simpa using List.isEmpty_eq_false_iff_exists_mem.mpr ⟨_, hmem⟩
  · exact mem_findGpuBlocks

/-! ## Claim C10: allocation failure is atomic -/

theorem vmmAllocate_append (s : VmmState) (l₁ l₂ : List Vm) :
    vmmAllocate s (l₁ ++ l₂)
      = ((vmmAllocate (vmmAllocate s l₁).1 l₂).1,
          (vmmAllocate s l₁).2 ++ (vmmAllocate (vmmAllocate s l₁).1 l₂).2) := by
  induction l₁ generalizing s with
  | nil => simp [vmmAllocate]
  | cons vm rest ih =>
    simp only [List.cons_append, vmmAllocate, List.append_eq]
    rw [ih]

theorem vmmAllocate_length (s : VmmState) (l : List Vm) :
    (vmmAllocate s l).2.length = l.length := by
  induction l generalizing s with
  | nil => rfl
  | cons vm rest ih => simp [vmmAllocate, ih]

/-- C10 (confirmed): when the combined capacity check fails for a VM of
the input list, its result entry is `false`, the hypervisor state is
untouched by that VM's processing and the VM is not turned on. -/
theorem c10_alloc_failure_atomic (s : VmmState) (pre : List Vm) (vm : Vm)
    (post : List Vm)
    (hcap : ¬ allCapacity (vmmAllocate s pre).1 vm = true) :
    (vmmAllocate s (pre ++ vm :: post)).2.getD pre.length false = false
    ∧ (vmmAllocate s (pre ++ [vm])).1 = (vmmAllocate s pre).1
    ∧ allocStep (vmmAllocate s pre).1 vm = ((vmmAllocate s pre).1, false, false) := by
  have hstep := allocStep_not_cap hcap
  refine ⟨?_, ?_, hstep⟩
  · rw [vmmAllocate_append]
    dsimp only
    rw [List.getD_append_right _ _ _ _ (le_of_eq (vmmAllocate_length s pre))]
    simp only [vmmAllocate_length, Nat.sub_self]
    simp [vmmAllocate, hstep]
  · rw [vmmAllocate_append]
    simp [vmmAllocate, hstep]

/-- Witness for C10: a VM requesting more cores than the host has. -/
theorem c10_witness :
    (vmmAllocate (vmmInit { CPU := [5], RAM := 16, GPU := [] })
        [{ vid := 1, name := "big", CPU := 2, RAM := 1, GPU := none }]).2.getD 0 false
        = false
    ∧ (vmmAllocate (vmmInit { CPU := [5], RAM := 16, GPU := [] })
        [{ vid := 1, name := "big", CPU := 2, RAM := 1, GPU := none }]).1
      = (vmmAllocate (vmmInit { CPU := [5], RAM := 16, GPU := [] }) []).1
    ∧ allocStep (vmmAllocate (vmmInit { CPU := [5], RAM := 16, GPU := [] }) []).1
        { vid := 1, name := "big", CPU := 2, RAM := 1, GPU := none }
      = ((vmmAllocate (vmmInit { CPU := [5], RAM := 16, GPU := [] }) []).1,
          false, false) :=
  c10_alloc_failure_atomic (vmmInit { CPU := [5], RAM := 16, GPU := [] }) [] _ []
    (by decide)

/-! ## First-fit placement (`policy/vmp.py`, class `VmpFirstFit`) -/

/-- A host of the datacenter together with its hypervisor ledger. -/
structure HostSt where
  pm : Pm
  vmm : VmmState
deriving DecidableEq, Inhabited

/-- First-fit placement state: the datacenter's host list (in declaration
order) and the `_vm_pm` map (vm id ↦ host position). -/
structure VmpState where
  hosts : List HostSt
  vmPm : List (Nat × Nat)
deriving DecidableEq, Inhabited

/-- A published placement event `(topic, host index, vm id)`. -/
abbrev VmpEvent := String × Nat × Nat

/-- The `for host in self.DATACENTER.HOSTS` scan of `VmpFirstFit.allocate`
with its `break`: find the first host whose VMM reports all three checks
true, run that host's `VMM.allocate([vm])` and return the updated host
list, the host's index and the boolean the VMM returned. -/
def allocOnHosts (vm : Vm) : List HostSt → Option (List HostSt × Nat × Bool)
  | [] => none
  | h :: rest =>
    if allCapacity h.vmm vm then
      let r := vmmAllocate h.vmm [vm]
      some ({ pm := h.pm, vmm := r.1 } :: rest, 0, r.2.getD 0 false)
    else
      match allocOnHosts vm rest with
      | none => none
      | some (rest', i, b) => some (h :: rest', i + 1, b)

/-- One iteration of the outer `for vm in vms` loop of
`VmpFirstFit.allocate`: on a fit, extend the results with the VMM's
answer, record the host in `_vm_pm` and publish `vm.allocate`; otherwise
append `false`. -/
def vmpAllocStep (s : VmpState) (vm : Vm) : VmpState × List Bool × List VmpEvent :=
  match allocOnHosts vm s.hosts with
  | some (hosts', i, b) =>
    ({ hosts := hosts', vmPm := ainsert vm.vid i s.vmPm }, [b],
      [("vm.allocate", i, vm.vid)])
  | none => (s, [false], [])

/-- `VmpFirstFit.allocate(vms)`. -/
def vmpAllocate (s : VmpState) : List Vm → VmpState × List Bool × List VmpEvent
  | [] => (s, [], [])
  | vm :: rest =>
    let r := vmpAllocStep s vm
    let rr := vmpAllocate r.1 rest
    (rr.1, r.2.1 ++ rr.2.1, r.2.2 ++ rr.2.2)

/-- Index of the first host whose VMM reports all three capacity checks
true, stated from the claim's words. -/
def firstFitIdx (vm : Vm) : List HostSt → Option Nat
  | [] => none
  | h :: rest =>
    if allCapacity h.vmm vm then some 0 else (firstFitIdx vm rest).map (· + 1)

theorem allocOnHosts_none_iff {vm : Vm} {hosts : List HostSt} :
    allocOnHosts vm hosts = none ↔ firstFitIdx vm hosts = none := by
  induction hosts with
  | nil => simp [allocOnHosts, firstFitIdx]
  | cons h rest ih =>
    by_cases hc : allCapacity h.vmm vm = true
    · simp [allocOnHosts, firstFitIdx, hc]
    · simp only [allocOnHosts, firstFitIdx, if_neg hc]
      cases hrec : allocOnHosts vm rest with
      | none =>
        rw [hrec] at ih
        simp [ih.mp rfl]
      | some p =>
        rw [hrec] at ih
        cases hfit : firstFitIdx vm rest with
        | none => exact absurd hfit (by simp [← ih, hrec])
        | some j => simp

theorem allocOnHosts_some_char {vm : Vm} {hosts : List HostSt} {i : Nat}
    (h : firstFitIdx vm hosts = some i) :
    i < hosts.length
    ∧ allCapacity (hosts.getD i default).vmm vm = true
    ∧ (∀ j < i, allCapacity (hosts.getD j default).vmm vm = false)
    ∧ allocOnHosts vm hosts = some
        (hosts.set i { pm := (hosts.getD i default).pm
                       vmm := (vmmAllocate (hosts.getD i default).vmm [vm]).1 },
          i, (vmmAllocate (hosts.getD i default).vmm [vm]).2.getD 0 false) := by
  induction hosts generalizing i with
  | nil => simp [firstFitIdx] at h
  | cons hd rest ih =>
    by_cases hc : allCapacity hd.vmm vm = true
    · simp only [firstFitIdx, if_pos hc, Option.some.injEq] at h
      subst h
      refine ⟨Nat.succ_pos _, hc, by omega, ?_⟩
      simp [allocOnHosts, hc]
    · simp only [firstFitIdx, if_neg hc] at h
      cases hfit : firstFitIdx vm rest with
      | none => rw [hfit] at h; simp at h
      | some j =>
        rw [hfit] at h
        simp only [Option.map_some', Option.some.injEq] at h
        subst h
        rcases ih hfit with ⟨hlt, hcap, hbefore, hrec⟩
        refine ⟨Nat.succ_lt_succ hlt, hcap, ?_, ?_⟩
        · intro j' hj'
          cases j' with
          | zero => simpa using (Bool.not_eq_true _).mp hc
          | succ j'' => exact hbefore j'' (Nat.lt_of_succ_lt_succ hj')
        · simp only [allocOnHosts, if_neg hc, hrec]
          rfl

theorem vmmAllocate_single_true {s : VmmState} {vm : Vm}
    (h : allCapacity s vm = true) : (vmmAllocate s [vm]).2 = [true] := by
  simp [vmmAllocate, allocStep, h]

theorem allocStep_guests {s : VmmState} {vm : Vm}
    (h : allCapacity s vm = true) :
    (allocStep s vm).1.guests = s.guests ++ [vm] := by
  simp [allocStep, h]

theorem vmpAllocate_append (s : VmpState) (l₁ l₂ : List Vm) :
    vmpAllocate s (l₁ ++ l₂)
      = ((vmpAllocate (vmpAllocate s l₁).1 l₂).1,
          (vmpAllocate s l₁).2.1 ++ (vmpAllocate (vmpAllocate s l₁).1 l₂).2.1,
          (vmpAllocate s l₁).2.2 ++ (vmpAllocate (vmpAllocate s l₁).1 l₂).2.2) := by
  induction l₁ generalizing s with
  | nil => simp [vmpAllocate]
  | cons vm rest ih =>
    simp only [List.cons_append, vmpAllocate, List.append_eq]
    rw [ih]
    simp [List.append_assoc]

theorem vmpAllocStep_result_length (s : VmpState) (vm : Vm) :
    (vmpAllocStep s vm).2.1.length = 1 := by
  unfold vmpAllocStep
  cases allocOnHosts vm s.hosts with
  | none => rfl
  | some p => obtain ⟨a, b, c⟩ := p; rfl

theorem vmpAllocate_result_length (s : VmpState) (l : List Vm) :
    (vmpAllocate s l).2.1.length = l.length := by
  induction l generalizing s with
  | nil => rfl
  | cons vm rest ih =>
    simp only [vmpAllocate, List.length_append, List.length_cons,
      vmpAllocStep_result_length, ih]
    omega

theorem vmpAllocStep_some {s : VmpState} {vm : Vm} {i : Nat}
    (h : firstFitIdx vm s.hosts = some i) :
    vmpAllocStep s vm
      = ({ hosts := s.hosts.set i
             { pm := (s.hosts.getD i default).pm
               vmm := (vmmAllocate (s.hosts.getD i default).vmm [vm]).1 }
           vmPm := ainsert vm.vid i s.vmPm },
          [true], [("vm.allocate", i, vm.vid)]) := by
  rcases allocOnHosts_some_char h with ⟨hlt, hcap, _, hrec⟩
  unfold vmpAllocStep
  rw [hrec, vmmAllocate_single_true hcap]
  rfl

theorem vmpAllocStep_none {s : VmpState} {vm : Vm}
    (h : firstFitIdx vm s.hosts = none) :
    vmpAllocStep s vm = (s, [false], []) := by
  unfold vmpAllocStep
  rw [allocOnHosts_none_iff.mpr h]

/-- C6 (confirmed): `VmpFirstFit.allocate` processes the VMs in order.
The VM at position `|pre|` is allocated on the first host, in the
datacenter's declared order, whose VMM reports all three capacity checks
true: that host's VMM gains the VM as a guest, the host is recorded in
the vm→pm map, a `vm.allocate` event naming that host and VM is
published, and the result entry is `true` (the VMM's re-check succeeds on
the unchanged ledger); when no host has capacity, the result entry is
`false` and the placement state, including the vm→pm map, is unchanged by
that VM's processing. -/
theorem c6_first_fit_placement (s : VmpState) (pre : List Vm) (vm : Vm)
    (post : List Vm) :
    (∀ i, firstFitIdx vm (vmpAllocate s pre).1.hosts = some i →
      (vmpAllocate s (pre ++ vm :: post)).2.1.getD pre.length false = true
      ∧ (vmpAllocate s (pre ++ [vm])).1.vmPm
          = ainsert vm.vid i (vmpAllocate s pre).1.vmPm
      ∧ (vmpAllocate s (pre ++ [vm])).1.hosts
          = (vmpAllocate s pre).1.hosts.set i
              { pm := ((vmpAllocate s pre).1.hosts.getD i default).pm
                vmm := (vmmAllocate
                  ((vmpAllocate s pre).1.hosts.getD i default).vmm [vm]).1 }
      ∧ (vmmAllocate ((vmpAllocate s pre).1.hosts.getD i default).vmm [vm]).1.guests
          = ((vmpAllocate s pre).1.hosts.getD i default).vmm.guests ++ [vm]
      ∧ (vmpAllocate s (pre ++ [vm])).2.2
          = (vmpAllocate s pre).2.2 ++ [("vm.allocate", i, vm.vid)])
    ∧ (firstFitIdx vm (vmpAllocate s pre).1.hosts = none →
      (vmpAllocate s (pre ++ vm :: post)).2.1.getD pre.length false = false
      ∧ (vmpAllocate s (pre ++ [vm])).1 = (vmpAllocate s pre).1
      ∧ (vmpAllocate s (pre ++ [vm])).2.2 = (vmpAllocate s pre).2.2) := by
  constructor
  · intro i hfit
    have hstep := vmpAllocStep_some hfit
    rcases allocOnHosts_some_char hfit with ⟨hlt, hcap, _, _⟩
    refine ⟨?_, ?_, ?_, ?_, ?_⟩
    · rw [vmpAllocate_append]
      dsimp only
      rw [List.getD_append_right _ _ _ _ (le_of_eq (vmpAllocate_result_length s pre))]
      simp only [vmpAllocate_result_length, Nat.sub_self]
      simp only [vmpAllocate]
      rw [hstep]
      rfl
    · rw [vmpAllocate_append]
      dsimp only
      simp only [vmpAllocate]
      rw [hstep]
    · rw [vmpAllocate_append]
      dsimp only
      simp only [vmpAllocate]
      rw [hstep]
    · have : vmmAllocate ((vmpAllocate s pre).1.hosts.getD i default).vmm [vm]
          = ((allocStep ((vmpAllocate s pre).1.hosts.getD i default).vmm vm).1,
              [(allocStep ((vmpAllocate s pre).1.hosts.getD i default).vmm vm).2.1]) := by
        simp [vmmAllocate]
      rw [this]
      exact allocStep_guests hcap
    · rw [vmpAllocate_append]
      dsimp only
      simp only [vmpAllocate]
      rw [hstep]
      rfl
  · intro hfit
    have hstep := vmpAllocStep_none hfit
    refine ⟨?_, ?_, ?_⟩
    · rw [vmpAllocate_append]
      dsimp only
      rw [List.getD_append_right _ _ _ _ (le_of_eq (vmpAllocate_result_length s pre))]
      simp only [vmpAllocate_result_length, Nat.sub_self]
      simp only [vmpAllocate]
      rw [hstep]
      rfl
    · rw [vmpAllocate_append]
      dsimp only
      simp only [vmpAllocate]
      rw [hstep]
    · rw [vmpAllocate_append]
      dsimp only
      simp only [vmpAllocate]
      rw [hstep]
      simp

/-- Witness for C6: one host with capacity for the VM, one VM. -/
theorem c6_witness :
    ((vmpAllocate
        { hosts := [{ pm := { CPU := [3], RAM := 8, GPU := [] }
                      vmm := vmmInit { CPU := [3], RAM := 8, GPU := [] } }]
          vmPm := [] }
        ([] ++ { vid := 2, name := "v", CPU := 1, RAM := 4, GPU := none } :: [])).2.1.getD
        0 false = true)
    ∧ (firstFitIdx { vid := 3, name := "w", CPU := 9, RAM := 4, GPU := none }
        (vmpAllocate
          { hosts := [{ pm := { CPU := [3], RAM := 8, GPU := [] }
                        vmm := vmmInit { CPU := [3], RAM := 8, GPU := [] } }]
            vmPm := [] } []).1.hosts = none →
      (vmpAllocate
        { hosts := [{ pm := { CPU := [3], RAM := 8, GPU := [] }
                      vmm := vmmInit { CPU := [3], RAM := 8, GPU := [] } }]
          vmPm := [] }
        ([] ++ { vid := 3, name := "w", CPU := 9, RAM := 4, GPU := none } :: [])).2.1.getD
        0 false = false) := by
  constructor
  · exact ((c6_first_fit_placement _ [] _ []).1 0 (by decide)).1
  · intro h
    exact ((c6_first_fit_placement _ [] _ []).2 h).1

/-! ## The `request.arrive` handler (`src/module/__init__.py`) -/

/-- A user request (`model.Request`): target VM, `REQUIRED` and `IGNORED`
flags, and whether the optional callbacks are present. -/
structure Request where
  vm : Vm
  required : Bool
  ignored : Bool
  hasOnSuccess : Bool
  hasOnFailure : Bool
deriving DecidableEq

/-- The message of the `AssertionError` raised by
`Simulation._handle_request_arrive` for a rejected required request. -/
def requiredRejectMsg (name : String) : String :=
  "The allocation of initialization requests must not result in failure: " ++ name

/-- A callback invocation: `(vm id, true)` for `ON_SUCCESS`,
`(vm id, false)` for `ON_FAILURE`. -/
abbrev CallbackCall := Nat × Bool

/-- Normal outcome of the `request.arrive` handler: the accepted and
rejected request lists (published as the payloads of `request.accept` and
`request.reject`), the callbacks invoked, the placement state and the
placement events published during allocation. -/
structure ArriveOut where
  accepted : List Request
  rejected : List Request
  callbacks : List CallbackCall
  state : VmpState
  events : List VmpEvent
deriving DecidableEq

/-- The `for request, allocated in zip(...)` loop of
`_handle_request_arrive`: accumulate accepted/rejected requests and
callback invocations; raise on the first rejected required request. -/
def processResults :
    List (Request × Bool) →
      Except String (List Request × List Request × List CallbackCall)
  | [] => Except.ok ([], [], [])
  | (r, true) :: rest =>
    (processResults rest).map (fun out =>
      (r :: out.1, out.2.1,
        (if r.hasOnSuccess then [(r.vm.vid, true)] else []) ++ out.2.2))
  | (r, false) :: rest =>
    if r.required then Except.error (requiredRejectMsg r.vm.name)
    else
      (processResults rest).map (fun out =>
        (out.1, r :: out.2.1,
          (if r.hasOnFailure then [(r.vm.vid, false)] else []) ++ out.2.2))

/-- `Simulation._handle_request_arrive(requests)`: allocate the batch's
VMs through the VMP, then walk the zipped results. -/
def handleRequestArrive (s : VmpState) (reqs : List Request) :
    Except String ArriveOut :=
  let a := vmpAllocate s (reqs.map (fun r => r.vm))
  (processResults (reqs.zip a.2.1)).map (fun out =>
    { accepted := out.1
      rejected := out.2.1
      callbacks := out.2.2
      state := a.1
      events := a.2.2 })

/-- Accepted requests of a zipped result list. -/
def acceptedOf (l : List (Request × Bool)) : List Request :=
  l.filterMap (fun p => if p.2 then some p.1 else none)

/-- Rejected requests of a zipped result list. -/
def rejectedOf (l : List (Request × Bool)) : List Request :=
  l.filterMap (fun p => if p.2 then none else some p.1)

/-- Callback invocations of a zipped result list. -/
def callbacksOf (l : List (Request × Bool)) : List CallbackCall :=
  l.filterMap (fun p =>
    if p.2 then (if p.1.hasOnSuccess then some (p.1.vm.vid, true) else none)
    else (if p.1.hasOnFailure then some (p.1.vm.vid, false) else none))

theorem processResults_ok (l : List (Request × Bool))
    (h : ∀ p ∈ l, p.1.required = true → p.2 = true) :
    processResults l = Except.ok (acceptedOf l, rejectedOf l, callbacksOf l) := by
  induction l with
  | nil => rfl
  | cons p rest ih =>
    obtain ⟨r, b⟩ := p
    have hrest : ∀ q ∈ rest, q.1.required = true → q.2 = true :=
      fun q hq => h q (List.mem_cons_of_mem _ hq)
    cases b with
    | true =>
      simp only [processResults, ih hrest, Except.map]
      cases hOS : r.hasOnSuccess <;>
        simp [acceptedOf, rejectedOf, callbacksOf, hOS]
    | false =>
      have hreq : r.required = false := by
        cases hr : r.required with
        | false => rfl
        | true => exact absurd (h (r, false) (List.mem_cons_self _ _) hr) (by simp)
      simp only [processResults, hreq, Bool.false_eq_true, if_false, ih hrest,
        Except.map]
      cases hOF : r.hasOnFailure <;>
        simp [acceptedOf, rejectedOf, callbacksOf, hOF]

theorem processResults_error_of_rejected (l : List (Request × Bool))
    (h : ∃ p ∈ l, p.1.required = true ∧ p.2 = false) :
    ∃ p ∈ l, p.1.required = true ∧ p.2 = false
      ∧ processResults l = Except.error (requiredRejectMsg p.1.vm.name) := by
  induction l with
  | nil => simp at h
  | cons q rest ih =>
    obtain ⟨r, b⟩ := q
    cases b with
    | true =>
      have h' : ∃ p ∈ rest, p.1.required = true ∧ p.2 = false := by
        rcases h with ⟨p, hp, hreq, hb⟩
        rcases List.mem_cons.mp hp with rfl | hp'
        · simp at hb
        · exact ⟨p, hp', hreq, hb⟩
      rcases ih h' with ⟨p, hp, hreq, hb, herr⟩
      refine ⟨p, List.mem_cons_of_mem _ hp, hreq, hb, ?_⟩
      simp only [processResults, herr, Except.map]
    | false =>
      cases hr : r.required with
      | true =>
        refine ⟨(r, false), List.mem_cons_self _ _, hr, rfl, ?_⟩
        simp only [processResults, hr, if_true]
      | false =>
        have h' : ∃ p ∈ rest, p.1.required = true ∧ p.2 = false := by
          rcases h with ⟨p, hp, hreq, hb⟩
          rcases List.mem_cons.mp hp with rfl | hp'
          · rw [hr] at hreq; simp at hreq
          · exact ⟨p, hp', hreq, hb⟩
        rcases ih h' with ⟨p, hp, hreq, hb, herr⟩
        refine ⟨p, List.mem_cons_of_mem _ hp, hreq, hb, ?_⟩
        simp only [processResults, hr, Bool.false_eq_true, if_false, herr, Except.map]

/-- C5 (confirmed): the `request.arrive` handler raises an error iff some
request of the batch with `REQUIRED = true` fails allocation; the error
message carries that request's VM name as a substring; and when no
required request is rejected the handler returns normally, with the
per-request success/failure callbacks invoked and the accepted and
rejected request lists published as values. -/
theorem c5_required_rejection_fatal (s : VmpState) (reqs : List Request) :
    ((∃ p ∈ reqs.zip (vmpAllocate s (reqs.map (fun r => r.vm))).2.1,
        p.1.required = true ∧ p.2 = false) →
      ∃ p ∈ reqs.zip (vmpAllocate s (reqs.map (fun r => r.vm))).2.1,
        p.1.required = true ∧ p.2 = false
        ∧ handleRequestArrive s reqs
            = Except.error (requiredRejectMsg p.1.vm.name)
        ∧ p.1.vm.name.data <:+: (requiredRejectMsg p.1.vm.name).data)
    ∧ ((∀ p ∈ reqs.zip (vmpAllocate s (reqs.map (fun r => r.vm))).2.1,
        p.1.required = true → p.2 = true) →
      handleRequestArrive s reqs = Except.ok
        { accepted := acceptedOf (reqs.zip (vmpAllocate s (reqs.map (fun r => r.vm))).2.1)
          rejected := rejectedOf (reqs.zip (vmpAllocate s (reqs.map (fun r => r.vm))).2.1)
          callbacks := callbacksOf (reqs.zip (vmpAllocate s (reqs.map (fun r => r.vm))).2.1)
          state := (vmpAllocate s (reqs.map (fun r => r.vm))).1
          events := (vmpAllocate s (reqs.map (fun r => r.vm))).2.2 }) := by
  constructor
  · intro h
    rcases processResults_error_of_rejected _ h with ⟨p, hp, hreq, hb, herr⟩
    refine ⟨p, hp, hreq, hb, ?_, ?_⟩
    · simp only [handleRequestArrive, herr, Except.map]
    · refine ⟨("The allocation of initialization requests must not result in failure: " : String).data,
        [], ?_⟩
      rw [List.append_nil, requiredRejectMsg, String.data_append]
  · intro h
    simp only [handleRequestArrive, processResults_ok _ h, Except.map]

/-- Placement state of the C5 witness. -/
def c5wState : VmpState :=
  { hosts := [{ pm := { CPU := [4], RAM := 8, GPU := [] }
                vmm := vmmInit { CPU := [4], RAM := 8, GPU := [] } }]
    vmPm := [] }

/-- Request batch of the C5 witness: a required request that fits and a
non-required request that does not (not enough RAM left). -/
def c5wReqs : List Request :=
  [{ vm := { vid := 0, name := "a", CPU := 1, RAM := 4, GPU := none }
     required := true, ignored := false
     hasOnSuccess := true, hasOnFailure := false },
   { vm := { vid := 1, name := "b", CPU := 1, RAM := 8, GPU := none }
     required := false, ignored := false
     hasOnSuccess := false, hasOnFailure := true }]

/-- Witness for C5. -/
theorem c5_witness : (handleRequestArrive c5wState c5wReqs).isOk = true := by
  rw [(c5_required_rejection_fatal c5wState c5wReqs).2 (by decide)]
  rfl

/-! ## Apps (`src/model/__init__.py`, class `App`) -/

/-- The concrete Python class of a workload; `type(app).__name__.lower()`
is `kindName`. -/
inductive AppKind
  | app
  | container
  | controller
deriving DecidableEq

/-- `type(app).__name__.lower()`. -/
def kindName : AppKind → String
  | .app => "app"
  | .container => "container"
  | .controller => "controller"

/-- Mutable state of a `model.App`: the thread remainders `_remained` and
the `__has_resumed_once` flag, plus the immutable `EXPIRATION`, the
object identity `aid` and the concrete class. -/
structure AppSt where
  aid : Nat
  kind : AppKind
  expiration : Option Nat
  remained : List Nat
  hasResumedOnce : Bool
deriving DecidableEq

/-- `App.is_stopped()` at virtual time `now`: expiration reached, or all
thread remainders zero. -/
def isStopped (now : Nat) (a : AppSt) : Bool :=
  (match a.expiration with
   | some e => decide (e ≤ now)
   | none => false) || a.remained.all (· == 0)

/-- Guard of the `while remaining_cycles[core_idx] > 0 and not
self.is_stopped()` loop of `App.resume` (the expiration part of
`is_stopped` is constant during the call). -/
def spinGuard (expired : Bool) (remained : List Nat) (rc : Int) : Bool :=
  decide (0 < rc) && !(expired || remained.all (· == 0))

/-- The inner `while` loop of `App.resume` for one core: spend
`min(remaining budget, current thread's remainder)`, advance the thread
pointer round-robin.  In the source `thread_idx` is always `< num_threads`
when the body runs, so the `% n` at the use sites is the identity there.
Structured with explicit fuel; `spin_guard_false` below proves the chosen
fuel always suffices, so the function returns exactly when the source's
guard fails. -/
def spinFuel (expired : Bool) :
    Nat → List Nat → Nat → Int → Int → List Nat × Nat × Int × Int
  | 0, remained, tidx, rc, consumed => (remained, tidx, rc, consumed)
  | fuel + 1, remained, tidx, rc, consumed =>
    if spinGuard expired remained rc then
      let n := remained.length
      let cur : Nat := remained.getD (tidx % n) 0
      let spend : Int := min rc (cur : Int)
      spinFuel expired fuel (remained.set (tidx % n) (cur - spend.toNat))
        ((tidx + 1) % n) (rc - spend) (consumed + spend)
    else (remained, tidx, rc, consumed)

/-- Distance (round-robin, starting at `tidx`) to the next thread with a
non-zero remainder. -/
def distToWork (remained : List Nat) (tidx : Nat) : Nat :=
  (remained.rotate tidx).findIdx (fun x => x != 0)

/-- Termination measure of the inner loop. -/
def spinMeasure (remained : List Nat) (tidx : Nat) (rc : Int) : Nat :=
  (rc.toNat + remained.sum) * remained.length + distToWork remained tidx

/-- Fuel that always suffices for `spinFuel`. -/
def spinFuelAmount (remained : List Nat) (rc : Int) : Nat :=
  (rc.toNat + remained.sum) * remained.length + remained.length + 1

/-- The inner `while` loop of `App.resume` for one core (packaged with its
sufficient fuel); returns the updated thread remainders, thread pointer,
residual budget and consumed cycles. -/
def spin (expired : Bool) (remained : List Nat) (tidx : Nat) (rc : Int) :
    List Nat × Nat × Int × Int :=
  spinFuel expired (spinFuelAmount remained rc) remained tidx rc 0

theorem getD_le_sum {l : List Nat} {i : Nat} : l.getD i 0 ≤ l.sum := by
  induction l generalizing i with
  | nil => simp
  | cons a rest ih =>
    cases i with
    | zero => simp
    | succ j =>
      calc rest.getD j 0 ≤ rest.sum := ih
        _ ≤ a + rest.sum := Nat.le_add_left _ _

theorem set_getD_self {l : List Nat} {i : Nat} : l.set i (l.getD i 0) = l := by
  induction l generalizing i with
  | nil => rfl
  | cons a rest ih =>
    cases i with
    | zero => rfl
    | succ j => simpa using ih

theorem sum_set {l : List Nat} {i : Nat} (h : i < l.length) (v : Nat) :
    (l.set i v).sum + l.getD i 0 = l.sum + v := by
  induction l generalizing i with
  | nil => simp at h
  | cons a rest ih =>
    cases i with
    | zero => simp [Nat.add_comm, Nat.add_left_comm]
    | succ j =>
      have := ih (Nat.lt_of_succ_lt_succ h)
      simp only [List.set_cons_succ, List.sum_cons, List.getD_cons_succ]
      omega

theorem findIdx_append_of_exists {p : Nat → Bool} {xs : List Nat}
    (h : ∃ y ∈ xs, p y = true) (zs : List Nat) :
    (xs ++ zs).findIdx p = xs.findIdx p := by
  induction xs with
  | nil => simp at h
  | cons x rest ih =>
    cases hx : p x with
    | true => simp [List.findIdx_cons, hx]
    | false =>
      have h' : ∃ y ∈ rest, p y = true := by
        rcases h with ⟨y, hy, hpy⟩
        rcases List.mem_cons.mp hy with rfl | hy'
        · rw [hx] at hpy; simp at hpy
        · exact ⟨y, hy', hpy⟩
      simp [List.findIdx_cons, hx, ih h']

theorem distToWork_le {remained : List Nat} {tidx : Nat} :
    distToWork remained tidx ≤ remained.length := by
  unfold distToWork
  calc (remained.rotate tidx).findIdx (fun x => x != 0)
      ≤ (remained.rotate tidx).length := List.findIdx_le_length _
    _ = remained.length := List.length_rotate _ _

theorem distToWork_mod {remained : List Nat} {tidx : Nat} :
    distToWork remained (tidx % remained.length) = distToWork remained tidx := by
  unfold distToWork
  rw [List.rotate_mod]

theorem distToWork_step {remained : List Nat} {tidx : Nat}
    (hn : 0 < remained.length)
    (hz : remained.getD (tidx % remained.length) 0 = 0)
    (hex : ∃ x ∈ remained, x ≠ 0) :
    distToWork remained (tidx + 1) + 1 = distToWork remained tidx := by
  set n := remained.length with hn'
  have ht : tidx % n < n := Nat.mod_lt _ hn
  have hrot : remained.rotate tidx = remained.rotate (tidx % n) := by
    rw [← List.rotate_mod]
  have hdrop : remained.drop (tidx % n)
      = remained.getD (tidx % n) 0 :: remained.drop (tidx % n + 1) := by
    rw [List.getD_eq_getElem remained 0 ht]
    exact List.drop_eq_getElem_cons ht
  have hsplit : remained.rotate (tidx % n)
      = 0 :: (remained.drop (tidx % n + 1) ++ remained.take (tidx % n)) := by
    rw [List.rotate_eq_drop_append_take (le_of_lt ht), hdrop, hz, List.cons_append]
  have hmem : ∃ y ∈ remained.drop (tidx % n + 1) ++ remained.take (tidx % n),
      (y != 0) = true := by
    rcases hex with ⟨x, hx, hxne⟩
    have hxrot : x ∈ remained.rotate (tidx % n) := by
      rw [List.mem_rotate]
      exact hx
    rw [hsplit] at hxrot
    rcases List.mem_cons.mp hxrot with rfl | hx'
    · exact absurd rfl hxne
    · exact ⟨x, hx', by simpa using hxne⟩
  have hrot1 : remained.rotate (tidx + 1)
      = (remained.drop (tidx % n + 1) ++ remained.take (tidx % n)) ++ [0] := by
    have h1 : remained.rotate (tidx + 1) = (remained.rotate tidx).rotate 1 := by
      rw [List.rotate_rotate]
    rw [h1, hrot, hsplit, List.rotate_cons_succ, List.rotate_zero]
  unfold distToWork
  rw [hrot1, hrot, hsplit, findIdx_append_of_exists hmem]
  simp [List.findIdx_cons]

theorem spinStep_measure {expired : Bool} {remained : List Nat} {tidx : Nat}
    {rc : Int} (hg : spinGuard expired remained rc = true) :
    spinMeasure
      (remained.set (tidx % remained.length)
        (remained.getD (tidx % remained.length) 0
          - (min rc ((remained.getD (tidx % remained.length) 0 : Nat) : Int)).toNat))
      ((tidx + 1) % remained.length)
      (rc - min rc ((remained.getD (tidx % remained.length) 0 : Nat) : Int))
    < spinMeasure remained tidx rc := by
  simp only [spinGuard, Bool.and_eq_true, decide_eq_true_eq, Bool.not_eq_true',
    Bool.or_eq_false_iff] at hg
  obtain ⟨hrc, _, hall⟩ := hg
  have hex : ∃ x ∈ remained, x ≠ 0 := by
    by_contra hno
    push_neg at hno
    have : remained.all (· == 0) = true := by
      rw [List.all_eq_true]
      intro x hx
      simpa using hno x hx
    rw [this] at hall
    exact absurd hall (by simp)
  have hn : 0 < remained.length := by
    rcases hex with ⟨x, hx, _⟩
    exact List.length_pos.mpr (List.ne_nil_of_mem hx)
  have ht : tidx % remained.length < remained.length := Nat.mod_lt _ hn
  set t := tidx % remained.length with htdef
  set cur := remained.getD t 0 with hcur
  by_cases hz : cur = 0
  · -- a zero-remainder thread: nothing is spent, the pointer advances
    have hmin : min rc ((cur : Nat) : Int) = 0 := by
      rw [hz]
      simp [min_eq_right, le_of_lt hrc]
    rw [hmin]
    simp only [Int.toNat_zero, Nat.sub_zero, Int.sub_zero, ← hcur]
    rw [set_getD_self]
    unfold spinMeasure
    rw [distToWork_mod]
    have hstep := distToWork_step hn (by rw [← htdef, ← hcur]; exact hz) hex
    omega
  · -- a positive spend strictly shrinks budget + remainders
    have hcurpos : 1 ≤ cur := Nat.one_le_iff_ne_zero.mpr hz
    have hminpos : 1 ≤ min rc ((cur : Nat) : Int) := by
      refine le_min hrc ?_
      exact_mod_cast hcurpos
    set spend := min rc ((cur : Nat) : Int) with hspend
    have hsple : spend ≤ rc := min_le_left _ _
    have hsplecur : spend ≤ (cur : Int) := min_le_right _ _
    have hspendN : spend.toNat ≤ cur := by omega
    have hspendN1 : 1 ≤ spend.toNat := by omega
    have hspendNrc : spend.toNat ≤ rc.toNat := by omega
    have hsum : (remained.set t (cur - spend.toNat)).sum + cur
        = remained.sum + (cur - spend.toNat) := sum_set ht _
    have hlen : (remained.set t (cur - spend.toNat)).length = remained.length :=
      List.length_set _ _ _
    have hcursum : cur ≤ remained.sum := getD_le_sum
    unfold spinMeasure
    rw [hlen]
    have hdist' : distToWork (remained.set t (cur - spend.toNat)) ((tidx + 1) % remained.length)
        ≤ remained.length := le_of_le_of_eq distToWork_le (by rw [hlen])
    have hK2 : 2 ≤ rc.toNat + remained.sum := by omega
    have h1 : (rc - spend).toNat + (remained.set t (cur - spend.toNat)).sum
        ≤ rc.toNat + remained.sum - 2 := by omega
    have h2 : ((rc - spend).toNat + (remained.set t (cur - spend.toNat)).sum)
          * remained.length
        ≤ (rc.toNat + remained.sum - 2) * remained.length :=
      Nat.mul_le_mul_right _ h1
    have hmul : (rc.toNat + remained.sum - 2) * remained.length
          + 2 * remained.length
        = (rc.toNat + remained.sum) * remained.length := by
      rw [← Nat.add_mul]
      have h5 : rc.toNat + remained.sum - 2 + 2 = rc.toNat + remained.sum := by omega
      rw [h5]
    omega

theorem spinFuel_guard_false {expired : Bool} (fuel : Nat) :
    ∀ remained tidx rc consumed, spinMeasure remained tidx rc < fuel →
      spinGuard expired (spinFuel expired fuel remained tidx rc consumed).1
        (spinFuel expired fuel remained tidx rc consumed).2.2.1 = false := by
  induction fuel with
  | zero => intro remained tidx rc consumed h; simp at h
  | succ fuel ih =>
    intro remained tidx rc consumed h
    by_cases hg : spinGuard expired remained rc = true
    · rw [spinFuel, if_pos hg]
      exact ih _ _ _ _ (lt_of_lt_of_le (spinStep_measure hg) (by omega))
    · rw [spinFuel, if_neg hg]
      exact (Bool.not_eq_true _).mp hg

/-- The fuel of `spin` always suffices: the loop exits exactly when the
source's guard fails. -/
theorem spin_guard_false (expired : Bool) (remained : List Nat) (tidx : Nat)
    (rc : Int) :
    spinGuard expired (spin expired remained tidx rc).1
      (spin expired remained tidx rc).2.2.1 = false := by
  apply spinFuel_guard_false
  unfold spinMeasure spinFuelAmount
  have := @distToWork_le remained tidx
  omega

/-- The `for core_idx in range(num_cores)` loop of `App.resume`; the
thread pointer persists across cores.  Returns the per-core consumed
cycles and the final thread remainders. -/
def coreLoop (expired : Bool) : List Int → List Nat → Nat → List Int × List Nat
  | [], remained, _ => ([], remained)
  | rc :: rest, remained, tidx =>
    let r := spin expired remained tidx rc
    let rr := coreLoop expired rest r.1 r.2.1
    (r.2.2.2 :: rr.1, rr.2)

/-- `App.resume(cpu)` at virtual time `now`: walk the cores, spending the
budget against the thread remainders round-robin; sets
`__has_resumed_once`. -/
def appResume (now : Nat) (a : AppSt) (cpu : List Int) : List Int × AppSt :=
  let expired := match a.expiration with
    | some e => decide (e ≤ now)
    | none => false
  let r := coreLoop expired cpu a.remained 0
  (r.1, { a with remained := r.2, hasResumedOnce := true })

theorem spinFuel_spec (expired : Bool) (fuel : Nat) :
    ∀ remained tidx rc consumed,
      (spinFuel expired fuel remained tidx rc consumed).2.2.2
          + (spinFuel expired fuel remained tidx rc consumed).2.2.1
        = consumed + rc
      ∧ (spinFuel expired fuel remained tidx rc consumed).2.2.1 ≤ rc
      ∧ (0 ≤ rc → 0 ≤ (spinFuel expired fuel remained tidx rc consumed).2.2.1)
      ∧ (∀ t, (spinFuel expired fuel remained tidx rc consumed).1.getD t 0
          ≤ remained.getD t 0)
      ∧ (spinFuel expired fuel remained tidx rc consumed).1.length
          = remained.length := by
  induction fuel with
  | zero =>
    intro remained tidx rc consumed
    exact ⟨by rw [spinFuel], le_refl _, fun h => h, fun t => le_refl _, rfl⟩
  | succ fuel ih =>
    intro remained tidx rc consumed
    by_cases hg : spinGuard expired remained rc = true
    · have hg' := hg
      simp only [spinGuard, Bool.and_eq_true, decide_eq_true_eq, Bool.not_eq_true',
        Bool.or_eq_false_iff] at hg'
      obtain ⟨hrc, _, hall⟩ := hg'
      have hn : 0 < remained.length := by
        rcases remained with _ | ⟨x, xs⟩
        · simp at hall
        · simp
      have ht : tidx % remained.length < remained.length := Nat.mod_lt _ hn
      set cur := remained.getD (tidx % remained.length) 0 with hcur
      set spend := min rc ((cur : Nat) : Int) with hspend
      have hunfold : spinFuel expired (fuel + 1) remained tidx rc consumed
          = spinFuel expired fuel
              (remained.set (tidx % remained.length) (cur - spend.toNat))
              ((tidx + 1) % remained.length) (rc - spend) (consumed + spend) := by
        rw [spinFuel, if_pos hg]
      rw [hunfold]
      have hsp0 : 0 ≤ spend := le_min (le_of_lt hrc) (by positivity)
      have hsple : spend ≤ rc := min_le_left _ _
      have hsplecur : spend ≤ (cur : Int) := min_le_right _ _
      rcases ih (remained.set (tidx % remained.length) (cur - spend.toNat))
          ((tidx + 1) % remained.length) (rc - spend) (consumed + spend)
        with ⟨ih1, ih2, ih3, ih4, ih5⟩
      refine ⟨by omega, by omega, fun h => ih3 (by omega), ?_, ?_⟩
      · intro t
        refine le_trans (ih4 t) ?_
        by_cases hti : tidx % remained.length = t
        · subst hti
          rw [getD_set_self ht]
          omega
        · rw [getD_set_ne hti]
      · rw [ih5, List.length_set]
    · rw [spinFuel, if_neg hg]
      exact ⟨rfl, le_refl _, fun h => h, fun t => le_refl _, rfl⟩

theorem spin_spec (expired : Bool) (remained : List Nat) (tidx : Nat) (rc : Int)
    (h : 0 ≤ rc) :
    0 ≤ (spin expired remained tidx rc).2.2.2
    ∧ (spin expired remained tidx rc).2.2.2 ≤ rc
    ∧ (∀ t, (spin expired remained tidx rc).1.getD t 0 ≤ remained.getD t 0)
    ∧ (spin expired remained tidx rc).1.length = remained.length := by
  rcases spinFuel_spec expired (spinFuelAmount remained rc) remained tidx rc 0
    with ⟨h1, h2, h3, h4, h5⟩
  unfold spin
  have h3' := h3 h
  refine ⟨by omega, by omega, h4, h5⟩

theorem coreLoop_spec (expired : Bool) (cpu : List Int) :
    ∀ remained tidx, (∀ x ∈ cpu, 0 ≤ x) →
      (coreLoop expired cpu remained tidx).1.length = cpu.length
      ∧ (∀ i, 0 ≤ (coreLoop expired cpu remained tidx).1.getD i 0
          ∧ (coreLoop expired cpu remained tidx).1.getD i 0 ≤ cpu.getD i 0)
      ∧ (∀ t, (coreLoop expired cpu remained tidx).2.getD t 0
          ≤ remained.getD t 0) := by
  induction cpu with
  | nil =>
    intro remained tidx h
    exact ⟨rfl, fun i => ⟨le_refl _, le_refl _⟩, fun t => le_refl _⟩
  | cons rc rest ih =>
    intro remained tidx h
    have hrc : 0 ≤ rc := h rc (List.mem_cons_self _ _)
    have hrest : ∀ x ∈ rest, 0 ≤ x := fun x hx => h x (List.mem_cons_of_mem _ hx)
    rcases spin_spec expired remained tidx rc hrc with ⟨hs1, hs2, hs3, _⟩
    rcases ih (spin expired remained tidx rc).1 (spin expired remained tidx rc).2.1
      hrest with ⟨ih1, ih2, ih3⟩
    refine ⟨?_, ?_, ?_⟩
    · simp only [coreLoop, List.length_cons, ih1]
    · intro i
      cases i with
      | zero => exact ⟨hs1, hs2⟩
      | succ j => exact ih2 j
    · intro t
      exact le_trans (ih3 t) (hs3 t)

/-- C9 (confirmed): for every app state (any thread lengths, any
expiration) and every non-negative per-core budget vector, `App.resume`
returns a consumed vector with `0 ≤ consumed[i] ≤ cpu[i]` on every core;
each thread's remainder never increases and (being a natural number, per
the data-model invariant `0 ≤ remaining[i]`) never drops below zero. -/
theorem c9_app_consumption_conservative (now : Nat) (a : AppSt) (cpu : List Int)
    (hcpu : ∀ x ∈ cpu, 0 ≤ x) :
    (appResume now a cpu).1.length = cpu.length
    ∧ (∀ i, 0 ≤ (appResume now a cpu).1.getD i 0
        ∧ (appResume now a cpu).1.getD i 0 ≤ cpu.getD i 0)
    ∧ (∀ t, (appResume now a cpu).2.remained.getD t 0 ≤ a.remained.getD t 0
        ∧ 0 ≤ ((appResume now a cpu).2.remained.getD t 0 : Int)) := by
  rcases coreLoop_spec
      (match a.expiration with
       | some e => decide (e ≤ now)
       | none => false) cpu a.remained 0 hcpu with ⟨h1, h2, h3⟩
  exact ⟨h1, h2, fun t => ⟨h3 t, by positivity⟩⟩

/-- App of the C9 witness: two threads, no expiration. -/
def c9wApp : AppSt :=
  { aid := 0, kind := AppKind.app, expiration := none
    remained := [5, 3], hasResumedOnce := false }

/-- Witness for C9. -/
theorem c9_witness :
    (∀ x ∈ ([4, 10] : List Int), 0 ≤ x)
    ∧ ((appResume 0 c9wApp [4, 10]).1.length = ([4, 10] : List Int).length
        ∧ (∀ i, 0 ≤ (appResume 0 c9wApp [4, 10]).1.getD i 0
            ∧ (appResume 0 c9wApp [4, 10]).1.getD i 0
              ≤ ([4, 10] : List Int).getD i 0)
        ∧ (∀ t, (appResume 0 c9wApp [4, 10]).2.remained.getD t 0
              ≤ c9wApp.remained.getD t 0
            ∧ 0 ≤ ((appResume 0 c9wApp [4, 10]).2.remained.getD t 0 : Int))) :=
  ⟨by decide, c9_app_consumption_conservative 0 c9wApp [4, 10] (by decide)⟩

/-! ## The time-shared OS (`src/policy/os.py`, class `OsTimeShared`) -/

/-- Intermediate result of the dispatch loop of `OsTimeShared.resume`:
the (updated) running list, the remaining per-core budget, the apps
queued for termination, the published start events, the per-app allotment
vectors (`available_cycles`), the per-app consumed vectors, and the loop
variable `app`'s final kind. -/
structure OsLoopOut where
  apps : List AppSt
  remained : List Int
  stopped : List AppSt
  events : List (String × Nat)
  allots : List (List Int)
  perApp : List (List Int)
  lastKind : Option AppKind
deriving DecidableEq

/-- The `for app in self` dispatch loop of `OsTimeShared.resume`:
publish `<kind>.start` on first dispatch, hand the app
`remained[i] × duration // num_apps` cycles per core, subtract what it
consumed, queue it for termination if it stopped, decrement `num_apps`
and break at zero (with `num_apps = |running|` on entry the break
coincides with the end of the list). -/
def osLoop (now duration : Nat) :
    List AppSt → List Int → Nat → OsLoopOut
  | [], remained, _ => ⟨[], remained, [], [], [], [], none⟩
  | a :: rest, remained, numApps =>
    let startEvs := if a.hasResumedOnce then []
      else [(kindName a.kind ++ ".start", a.aid)]
    let avail := remained.map
      (fun c => Int.fdiv (c * (duration : Int)) ((numApps : Nat) : Int))
    let r := appResume now a avail
    let remained' := List.zipWith (fun x y => x - y) remained r.1
    let stoppedHere := if isStopped now r.2 then [r.2] else []
    if numApps - 1 = 0 then
      ⟨r.2 :: rest, remained', stoppedHere, startEvs, [avail], [r.1], some a.kind⟩
    else
      let rr := osLoop now duration rest remained' (numApps - 1)
      ⟨r.2 :: rr.apps, rr.remained, stoppedHere ++ rr.stopped,
        startEvs ++ rr.events, avail :: rr.allots, r.1 :: rr.perApp,
        some (rr.lastKind.getD a.kind)⟩

/-- `self._running_apps.remove(app)` (identity-based). -/
def eraseFirstApp (aid : Nat) : List AppSt → List AppSt
  | [] => []
  | a :: rest => if a.aid = aid then rest else a :: eraseFirstApp aid rest

/-- Aggregate outcome of `OsTimeShared.resume`. -/
structure OsOut where
  running : List AppSt
  stoppedNew : List AppSt
  consumed : List Int
  events : List (String × Nat)
  allots : List (List Int)
  perApp : List (List Int)
deriving DecidableEq

/-- `OsTimeShared.resume(cpu, duration)` on the running list at time
`now`.  The termination loop publishes each stop event with the topic
built from `type(app).__name__` where `app` is the DISPATCH loop's
variable — i.e. the kind of the last dispatched app, not the stopped
app's own kind (`os.py` line 39); the payload is the stopped app.  The
`.getD AppKind.app` default is never used: when any app stopped, the
dispatch loop ran, so `lastKind` is `some`. -/
def osResume (now : Nat) (running : List AppSt) (cpu : List Int) (duration : Nat) :
    OsOut :=
  let remained0 := cpu.map (fun c => c * (duration : Int))
  let L := osLoop now duration running remained0 running.length
  let stopEvs := L.stopped.map (fun sa =>
    (kindName (L.lastKind.getD AppKind.app) ++ ".stop", sa.aid))
  { running := L.stopped.foldl (fun acc sa => eraseFirstApp sa.aid acc) L.apps
    stoppedNew := L.stopped
    consumed := List.zipWith (fun c rcv => c * (duration : Int) - rcv) cpu L.remained
    events := L.events ++ stopEvs
    allots := L.allots
    perApp := L.perApp }

/-! ## Claim C2: the allotment formula -/

/-- The remaining-budget sequence exactly as claim C2 states it: start
from the initial budget, and after each app subtract the consumed-cycles
vector that app returned. -/
def budgetRec (B : List Int) (perApp : List (List Int)) : Nat → List Int
  | 0 => B
  | k + 1 => List.zipWith (fun x y => x - y) (budgetRec B perApp k) (perApp.getD k [])

theorem budgetRec_shift (B : List Int) (c0 : List Int) (ps : List (List Int)) :
    ∀ k, budgetRec B (c0 :: ps) (k + 1)
      = budgetRec (List.zipWith (fun x y => x - y) B c0) ps k := by
  intro k
  induction k with
  | zero => rfl
  | succ k ih =>
    show List.zipWith _ (budgetRec B (c0 :: ps) (k + 1)) ((c0 :: ps).getD (k + 1) [])
      = List.zipWith _ (budgetRec (List.zipWith (fun x y => x - y) B c0) ps k)
          (ps.getD k [])
    rw [ih]
    rfl

theorem osLoop_allots (now duration : Nat) :
    ∀ (apps : List AppSt) (B : List Int),
      (osLoop now duration apps B apps.length).allots.length = apps.length
      ∧ (osLoop now duration apps B apps.length).perApp.length = apps.length
      ∧ ∀ k, k < apps.length →
          (osLoop now duration apps B apps.length).allots.getD k []
            = (budgetRec B (osLoop now duration apps B apps.length).perApp k).map
                (fun c => Int.fdiv (c * (duration : Int))
                  (((apps.length - k : Nat) : Int))) := by
  intro apps
  induction apps with
  | nil => exact fun B => ⟨rfl, rfl, fun k hk => absurd hk (by simp)⟩
  | cons a rest ih =>
    intro B
    cases hrest : rest with
    | nil =>
      refine ⟨rfl, rfl, ?_⟩
      intro k hk
      have hk0 : k = 0 := by
        simp only [List.length_cons, List.length_nil] at hk
        omega
      subst hk0
      rfl
    | cons b rest' =>
      rw [← hrest]
      have hne : rest.length ≠ 0 := by rw [hrest]; simp
      have hunfold : osLoop now duration (a :: rest) B (a :: rest).length
          = (let startEvs := if a.hasResumedOnce then []
               else [(kindName a.kind ++ ".start", a.aid)]
             let avail := B.map (fun c => Int.fdiv (c * (duration : Int))
               (((a :: rest).length : Nat) : Int))
             let r := appResume now a avail
             let remained' := List.zipWith (fun x y => x - y) B r.1
             let rr := osLoop now duration rest remained' rest.length
             ⟨r.2 :: rr.apps, rr.remained, (if isStopped now r.2 then [r.2] else [])
                ++ rr.stopped, startEvs ++ rr.events, avail :: rr.allots,
                r.1 :: rr.perApp, some (rr.lastKind.getD a.kind)⟩) := by
        rw [osLoop]
        simp only [List.length_cons, Nat.add_sub_cancel]
        rw [if_neg hne]
      rw [hunfold]
      dsimp only
      refine ⟨?_, ?_, ?_⟩
      · rw [List.length_cons, (ih _).1]
        rfl
      · rw [List.length_cons, (ih _).2.1]
        rfl
      · intro k hk
        cases k with
        | zero => rfl
        | succ k' =>
          have hk' : k' < rest.length := by
            simp only [List.length_cons] at hk
            omega
          rw [budgetRec_shift]
          simp only [List.getD_cons_succ]
          rw [(ih _).2.2 k' hk']
          have harith : (a :: rest).length - (k' + 1) = rest.length - k' := by
            simp
          rw [harith]

/-- C2 (confirmed): in `OsTimeShared.resume(cpu, duration)` with initial
per-core budget `B[i] = cpu[i] × duration`, the allotment passed to the
app at position `k` equals (remaining budget) × duration // n with
integer floor division, where `n = |running| - k` is the number of apps
not yet dispatched; the remaining budget is the initial budget minus the
consumed-cycles vectors returned by the previously dispatched apps. -/
theorem c2_allotment_formula (now duration : Nat) (running : List AppSt)
    (cpu : List Int) (k : Nat) (hk : k < running.length) :
    (osResume now running cpu duration).allots.length = running.length
    ∧ (osResume now running cpu duration).allots.getD k []
      = (budgetRec (cpu.map (fun c => c * (duration : Int)))
          (osResume now running cpu duration).perApp k).map
          (fun c => Int.fdiv (c * (duration : Int))
            (((running.length - k : Nat) : Int))) := by
  rcases osLoop_allots now duration running
    (cpu.map (fun c => c * (duration : Int))) with ⟨h1, _, h3⟩
  exact ⟨h1, h3 k hk⟩

/-- Witness for C2: two apps on one core. -/
theorem c2_witness :
    (0 < 2)
    ∧ ((osResume 0
        [{ aid := 0, kind := AppKind.app, expiration := none
           remained := [1], hasResumedOnce := true },
         { aid := 1, kind := AppKind.app, expiration := none
           remained := [5], hasResumedOnce := true }] [4] 1).allots.length = 2
      ∧ (osResume 0
        [{ aid := 0, kind := AppKind.app, expiration := none
           remained := [1], hasResumedOnce := true },
         { aid := 1, kind := AppKind.app, expiration := none
           remained := [5], hasResumedOnce := true }] [4] 1).allots.getD 0 []
        = (budgetRec (([4] : List Int).map (fun c => c * ((1 : Nat) : Int)))
            (osResume 0
              [{ aid := 0, kind := AppKind.app, expiration := none
                 remained := [1], hasResumedOnce := true },
               { aid := 1, kind := AppKind.app, expiration := none
                 remained := [5], hasResumedOnce := true }] [4] 1).perApp 0).map
            (fun c => Int.fdiv (c * ((1 : Nat) : Int)) (((2 - 0 : Nat) : Int)))) :=
  ⟨by decide,
    c2_allotment_formula 0 1
      [{ aid := 0, kind := AppKind.app, expiration := none
         remained := [1], hasResumedOnce := true },
       { aid := 1, kind := AppKind.app, expiration := none
         remained := [5], hasResumedOnce := true }] [4] 0 (by decide)⟩

/-! ## Claim C8: stop-event topics -/

/-- C8 (code bug): `os.py` line 39 publishes every stop event with the
topic built from `type(app).__name__` where `app` is the dispatch loop's
variable — the LAST dispatched app — not the stopped app.  Failing input:
a running list `[Container(length=(1,)), App(length=(5,))]` with one core
of frequency 4 and duration 1.  The Container finishes, but its stop
event is published under `app.stop` (the kind of the last dispatched
plain App) with the Container as payload, and no `container.stop` event
is published — contradicting the claim that the topic is the lowercased
concrete type name of the stopped app itself. -/
theorem c8_stop_topic_divergence :
    (osResume 0
      [{ aid := 0, kind := AppKind.container, expiration := none
         remained := [1], hasResumedOnce := true },
       { aid := 1, kind := AppKind.app, expiration := none
         remained := [5], hasResumedOnce := true }] [4] 1).stoppedNew.map
        (fun a => (a.kind, a.aid)) = [(AppKind.container, 0)]
    ∧ (osResume 0
      [{ aid := 0, kind := AppKind.container, expiration := none
         remained := [1], hasResumedOnce := true },
       { aid := 1, kind := AppKind.app, expiration := none
         remained := [5], hasResumedOnce := true }] [4] 1).events
      = [("app.stop", 0)]
    ∧ (∀ e ∈ (osResume 0
      [{ aid := 0, kind := AppKind.container, expiration := none
         remained := [1], hasResumedOnce := true },
       { aid := 1, kind := AppKind.app, expiration := none
         remained := [5], hasResumedOnce := true }] [4] 1).events,
        e.1 ≠ kindName AppKind.container ++ ".stop") := by
  have he2 : (osResume 0
      [{ aid := 0, kind := AppKind.container, expiration := none
         remained := [1], hasResumedOnce := true },
       { aid := 1, kind := AppKind.app, expiration := none
         remained := [5], hasResumedOnce := true }] [4] 1).events
      = [("app.stop", 0)] := by decide
  refine ⟨by decide, he2, ?_⟩
  intro e he
  rw [he2] at he
  simp only [List.mem_singleton] at he
  subst he
  decide

/-! ## The round-robin control plane (`src/policy/control_plane.py`) -/

/-- A deployed container (`model.Container`) as the control plane reads
it: `CPU[0]` (a float, modelled as an exact rational), `RAM[0]`, and the
optional discrete GPU profile.  `cid` is the Python object identity. -/
structure Container where
  cid : Nat
  cpuReq : ℚ
  ramReq : Int
  gpuReq : Option (Nat × Nat)
deriving DecidableEq

/-- A node's `_node_gpu` ledger value in the discrete variant: Python
`None`, the empty tuple `()` (written after any container deploys), or
the node's `(units, blocks)` profile tuple. -/
inductive GpuLedger
  | null
  | emptyTup
  | prof (units blocks : Nat)
deriving DecidableEq

/-- Python `==` between a ledger value and a requested GPU value (`None`
or a profile tuple): `None == None` is true, a tuple equals an equal
tuple, and `()` equals neither `None` nor a non-empty tuple. -/
def gpuLedgerEq : GpuLedger → Option (Nat × Nat) → Bool
  | GpuLedger.null, none => true
  | GpuLedger.prof u b, some p => decide ((u, b) = p)
  | _, _ => false

/-- The GPU conjunct of `ControlPlaneRoundRobin._has_sufficient_resources`:
`not requested_gpu or self._node_gpu[node] in requested_gpu`, where
`requested_gpu` is a LIST (one entry per container on the deployment
path; the singleton `[gpu]` on the per-container path).  A non-empty list
is truthy in Python even when its sole element is `None`. -/
def hasGpuResource (requestedGpu : List (Option (Nat × Nat)))
    (nodeGpu : GpuLedger) : Bool :=
  requestedGpu.isEmpty || requestedGpu.any (fun g => gpuLedgerEq nodeGpu g)

/-- `ControlPlaneRoundRobin._has_sufficient_resources` (discrete
variant). -/
def hasSufficientResources (nodeCpu : ℚ) (nodeRam : Int) (nodeGpu : GpuLedger)
    (reqCpu : ℚ) (reqRam : Int) (reqGpu : List (Option (Nat × Nat))) : Bool :=
  decide (reqCpu ≤ nodeCpu) && decide (reqRam ≤ nodeRam)
    && hasGpuResource reqGpu nodeGpu

/-- `_has_sufficient_resources_for_container`: wraps the container's GPU
request in a one-element list before delegating. -/
def hasSufficientResourcesForContainer (nodeCpu : ℚ) (nodeRam : Int)
    (nodeGpu : GpuLedger) (c : Container) : Bool :=
  hasSufficientResources nodeCpu nodeRam nodeGpu c.cpuReq c.ramReq [c.gpuReq]

/-- C4 (counterexample): a container with no GPU request (`GPU = None`)
and zero CPU/RAM demand FAILS the per-container sufficiency check on a
node whose free-GPU ledger holds the profile `(1, 2)` — because the check
receives the singleton list `[None]`, which is truthy, and then tests
`node_gpu in [None]`, which is false.  The claim states such a container
always passes the GPU check on any node. -/
theorem c4_counterexample :
    hasSufficientResourcesForContainer 10 10 (GpuLedger.prof 1 2)
        { cid := 0, cpuReq := 0, ramReq := 0, gpuReq := none } = false
    ∧ hasGpuResource [(none : Option (Nat × Nat))] (GpuLedger.prof 1 2) = false := by
  constructor
  · rfl
  · rfl

/-- C4 (amended): the GPU component of the per-container sufficiency
check passes iff the node's current free-GPU ledger entry equals (under
Python `==`) the container's requested GPU value — which may be `None`.
A container with no GPU request therefore passes the GPU check exactly on
nodes whose ledger entry is `None` (nodes without a GPU), not on every
node; a container requesting `(units, blocks)` passes iff the ledger
holds that same tuple. -/
theorem c4_gpu_fit_rule (nodeCpu : ℚ) (nodeRam : Int) (nodeGpu : GpuLedger)
    (c : Container) :
    hasGpuResource [c.gpuReq] nodeGpu = gpuLedgerEq nodeGpu c.gpuReq
    ∧ hasSufficientResourcesForContainer nodeCpu nodeRam nodeGpu c
      = (decide (c.cpuReq ≤ nodeCpu) && decide (c.ramReq ≤ nodeRam)
          && gpuLedgerEq nodeGpu c.gpuReq)
    ∧ (hasGpuResource [(none : Option (Nat × Nat))] nodeGpu = true
        ↔ nodeGpu = GpuLedger.null) := by
  have h1 : hasGpuResource [c.gpuReq] nodeGpu = gpuLedgerEq nodeGpu c.gpuReq := by
    simp [hasGpuResource]
  refine ⟨h1, ?_, ?_⟩
  · rw [hasSufficientResourcesForContainer, hasSufficientResources, h1]
  · cases nodeGpu <;> simp [hasGpuResource, gpuLedgerEq]

/-! ### `delete` and the container-removal path (claim C7) -/

/-- The only event the delete path could publish. -/
inductive CpEv
  | deploymentStop (dep : Nat)
deriving DecidableEq

/-- State of `ControlPlaneRoundRobin` (discrete variant), keyed by object
ids: node ledgers, `_deployment_replicas`, `_container_deployment`,
`_container_node`. -/
structure CPState where
  nodeCpu : List (Nat × ℚ)
  nodeRam : List (Nat × Int)
  nodeGpu : List (Nat × GpuLedger)
  deploymentReplicas : List (Nat × List (List Container))
  containerDeployment : List (Nat × Nat)
  containerNode : List (Nat × Nat)
deriving DecidableEq

/-- The value `_delete_container` writes back to `_node_gpu`: the deleted
container's requested GPU itself (a tuple, or Python `None`). -/
def toLedger : Option (Nat × Nat) → GpuLedger
  | none => GpuLedger.null
  | some p => GpuLedger.prof p.1 p.2

/-- `replica.remove(container)` (first occurrence, identity equality). -/
def eraseFirstContainer (cid : Nat) : List Container → List Container
  | [] => []
  | c :: rest => if c.cid = cid then rest else c :: eraseFirstContainer cid rest

/-- The replica scan of `_remove_container_references`: find the first
replica group containing the container, remove it from that group, and
drop the group if it became empty (then `break`).  `none` when no group
contains the container. -/
def removeRef (cid : Nat) :
    List (List Container) → Option (List (List Container) × Bool)
  | [] => none
  | g :: rest =>
    if g.any (fun c => c.cid = cid) then
      let g' := eraseFirstContainer cid g
      if g'.isEmpty then some (rest, true) else some (g' :: rest, false)
    else (removeRef cid rest).map (fun p => (g :: p.1, p.2))

/-- `ControlPlaneRoundRobin._remove_container_references(container)`:
drop the container's map entries; when removing it empties a replica
group AND the deployment's replica list, delete the deployment's entry
and publish `deployment.stop`. -/
def removeContainerReferences (s : CPState) (c : Container) :
    CPState × List CpEv :=
  let dep := (alookup c.cid s.containerDeployment).getD 0
  let s1 := { s with containerDeployment := aerase c.cid s.containerDeployment
                     containerNode := aerase c.cid s.containerNode }
  let groups := (alookup dep s1.deploymentReplicas).getD []
  match removeRef c.cid groups with
  | none => (s1, [])
  | some (groups', dropped) =>
    if dropped && groups'.isEmpty then
      ({ s1 with deploymentReplicas := aerase dep s1.deploymentReplicas },
        [CpEv.deploymentStop dep])
    else
      ({ s1 with deploymentReplicas := ainsert dep groups' s1.deploymentReplicas },
        [])

/-- `ControlPlaneRoundRobin._delete_container(None, container)`: look up
the hosting node, release CPU/RAM and restore the GPU ledger to the
container's request, then remove the references. -/
def deleteContainer (s : CPState) (c : Container) : CPState × List CpEv :=
  let node := (alookup c.cid s.containerNode).getD 0
  let s1 := { s with
    nodeCpu := ainsert node ((alookup node s.nodeCpu).getD 0 + c.cpuReq) s.nodeCpu
    nodeRam := ainsert node ((alookup node s.nodeRam).getD 0 + c.ramReq) s.nodeRam
    nodeGpu := ainsert node (toLedger c.gpuReq) s.nodeGpu }
  removeContainerReferences s1 c

/-- The inner `while replica_containers` loop of `delete`: containers are
popped from the END of the group, so the group is processed in reverse
(callers pass the reversed group). -/
def deleteContainersList (s : CPState) : List Container → CPState × List CpEv
  | [] => (s, [])
  | c :: rest =>
    let r := deleteContainer s c
    let rr := deleteContainersList r.1 rest
    (rr.1, r.2 ++ rr.2)

/-- The outer `while self._deployment_replicas[deployment] and
num_replicas` loop of `delete`: pop the LAST replica group and delete its
containers. -/
def deleteLoop (s : CPState) (dep : Nat) : Nat → CPState × List CpEv
  | 0 => (s, [])
  | n + 1 =>
    let groups := (alookup dep s.deploymentReplicas).getD []
    if groups.isEmpty then (s, [])
    else
      let s1 := { s with
        deploymentReplicas := ainsert dep groups.dropLast s.deploymentReplicas }
      let r := deleteContainersList s1 (groups.getLastD []).reverse
      let rr := deleteLoop r.1 dep n
      (rr.1, r.2 ++ rr.2)

/-- `ControlPlaneRoundRobin.delete(deployment, num_replicas)`:
`num_replicas = None` (or `0`, both falsy) means all replicas; after the
loop, an emptied replica list deletes the deployment's dictionary entry
(without publishing anything). -/
def cpDelete (s : CPState) (dep : Nat) (numReplicas : Option Nat) :
    CPState × List CpEv :=
  let n := match numReplicas with
    | none => ((alookup dep s.deploymentReplicas).getD []).length
    | some k => if k = 0 then ((alookup dep s.deploymentReplicas).getD []).length
        else k
  let r := deleteLoop s dep n
  if ((alookup dep r.1.deploymentReplicas).getD []).isEmpty then
    ({ r.1 with deploymentReplicas := aerase dep r.1.deploymentReplicas }, r.2)
  else (r.1, r.2)

/-- Container ids of a deployment's replica groups. -/
def groupCids (groups : List (List Container)) : List Nat :=
  groups.flatMap (fun g => g.map (fun c => c.cid))

/-- Container ids recorded in a replica map. -/
def cidsOf (l : List (Nat × List (List Container))) : List Nat :=
  l.flatMap (fun e => groupCids e.2)

/-- All container ids recorded in the replica map of a state. -/
def allCids (s : CPState) : List Nat := cidsOf s.deploymentReplicas

theorem alookup_aerase_ne {α : Type} {k k' : Nat} {l : List (Nat × α)}
    (h : ¬ k' = k) : alookup k' (aerase k l) = alookup k' l := by
  induction l with
  | nil => rfl
  | cons e rest ih =>
    obtain ⟨k0, v0⟩ := e
    by_cases he : k0 = k
    · subst he
      have hne : ¬ k0 = k' := fun h2 => h h2.symm
      simp [aerase, alookup, hne]
    · simp only [aerase, if_neg he, alookup]
      by_cases he2 : k0 = k'
      · simp only [if_pos he2]
      · simp only [if_neg he2]
        exact ih

theorem alookup_mem {α : Type} {k : Nat} {v : α} {l : List (Nat × α)}
    (h : alookup k l = some v) : (k, v) ∈ l := by
  induction l with
  | nil => simp [alookup] at h
  | cons e rest ih =>
    obtain ⟨k0, v0⟩ := e
    by_cases he : k0 = k
    · simp only [alookup, if_pos he, Option.some.injEq] at h
      subst he
      subst h
      exact List.mem_cons_self _ _
    · simp only [alookup, if_neg he] at h
      exact List.mem_cons_of_mem _ (ih h)

theorem alookup_split {α : Type} {k : Nat} {v : α} {l : List (Nat × α)}
    (h : alookup k l = some v) :
    ∃ l₁ l₂, l = l₁ ++ (k, v) :: l₂ ∧ k ∉ l₁.map Prod.fst := by
  induction l with
  | nil => simp [alookup] at h
  | cons e rest ih =>
    obtain ⟨k0, v0⟩ := e
    by_cases he : k0 = k
    · simp only [alookup, if_pos he, Option.some.injEq] at h
      subst he
      subst h
      exact ⟨[], rest, rfl, by simp⟩
    · simp only [alookup, if_neg he] at h
      rcases ih h with ⟨l₁, l₂, hsp, hk⟩
      refine ⟨(k0, v0) :: l₁, l₂, by rw [hsp, List.cons_append], ?_⟩
      simp only [List.map_cons, List.mem_cons, not_or]
      exact ⟨fun h2 => he h2.symm, hk⟩

theorem ainsert_found {α : Type} {k : Nat} {w : α} (v : α) {l₁ l₂ : List (Nat × α)}
    (h : k ∉ l₁.map Prod.fst) :
    ainsert k v (l₁ ++ (k, w) :: l₂) = l₁ ++ (k, v) :: l₂ := by
  induction l₁ with
  | nil => simp [ainsert]
  | cons e rest ih =>
    simp only [List.map_cons, List.mem_cons, not_or] at h
    have hne : ¬ e.1 = k := fun he => h.1 he.symm
    simp only [List.cons_append, ainsert, if_neg hne]
    exact congrArg (fun t => (e.1, e.2) :: t) (ih h.2)

theorem alookup_aerase_self {α : Type} {k : Nat} {l : List (Nat × α)}
    (h : (l.map Prod.fst).Nodup) : alookup k (aerase k l) = none := by
  induction l with
  | nil => rfl
  | cons e rest ih =>
    obtain ⟨k0, v0⟩ := e
    simp only [List.map_cons, List.nodup_cons] at h
    by_cases he : k0 = k
    · subst he
      have haer : aerase k0 ((k0, v0) :: rest) = rest := by
        simp [aerase]
      rw [haer]
      cases halo : alookup k0 rest with
      | none => rfl
      | some v =>
        exact absurd (List.mem_map_of_mem Prod.fst (alookup_mem halo)) h.1
    · simp only [aerase, if_neg he, alookup, if_neg he]
      exact ih h.2

theorem removeRef_none {cid : Nat} {groups : List (List Container)}
    (h : ∀ g ∈ groups, ∀ c ∈ g, c.cid ≠ cid) : removeRef cid groups = none := by
  induction groups with
  | nil => rfl
  | cons g rest ih =>
    have hg : g.any (fun c => c.cid = cid) = false := by
      rw [List.any_eq_false]
      intro c hc
      simpa using h g (List.mem_cons_self _ _) c hc
    simp only [removeRef, hg, Bool.false_eq_true, if_false]
    rw [ih fun g' hg' => h g' (List.mem_cons_of_mem _ hg')]
    rfl

theorem deleteContainer_fields (s : CPState) (c : Container) :
    (deleteContainer s c).1.nodeCpu
      = ainsert ((alookup c.cid s.containerNode).getD 0)
          ((alookup ((alookup c.cid s.containerNode).getD 0) s.nodeCpu).getD 0
            + c.cpuReq) s.nodeCpu
    ∧ (deleteContainer s c).1.nodeRam
      = ainsert ((alookup c.cid s.containerNode).getD 0)
          ((alookup ((alookup c.cid s.containerNode).getD 0) s.nodeRam).getD 0
            + c.ramReq) s.nodeRam
    ∧ (deleteContainer s c).1.nodeGpu
      = ainsert ((alookup c.cid s.containerNode).getD 0) (toLedger c.gpuReq)
          s.nodeGpu
    ∧ (deleteContainer s c).1.containerDeployment
      = aerase c.cid s.containerDeployment
    ∧ (deleteContainer s c).1.containerNode = aerase c.cid s.containerNode := by
  unfold deleteContainer removeContainerReferences
  dsimp only
  split
  · exact ⟨rfl, rfl, rfl, rfl, rfl⟩
  · split
    · exact ⟨rfl, rfl, rfl, rfl, rfl⟩
    · exact ⟨rfl, rfl, rfl, rfl, rfl⟩

theorem deleteContainer_invisible {s : CPState} {c : Container}
    (hinv : ∀ e ∈ s.deploymentReplicas, ∀ g ∈ e.2, ∀ c' ∈ g, c'.cid ≠ c.cid) :
    (deleteContainer s c).2 = []
    ∧ (deleteContainer s c).1.deploymentReplicas = s.deploymentReplicas := by
  unfold deleteContainer removeContainerReferences
  dsimp only
  have hnone : removeRef c.cid
      ((alookup ((alookup c.cid s.containerDeployment).getD 0)
        s.deploymentReplicas).getD []) = none := by
    cases halo : alookup ((alookup c.cid s.containerDeployment).getD 0)
        s.deploymentReplicas with
    | none => rfl
    | some v =>
      simp only [Option.getD_some]
      exact removeRef_none fun g hg c' hc' =>
        hinv _ (alookup_mem halo) g hg c' hc'
  rw [hnone]
  exact ⟨rfl, rfl⟩

theorem deleteContainersList_invisible :
    ∀ (cs : List Container) (s : CPState),
      (∀ c ∈ cs, ∀ e ∈ s.deploymentReplicas, ∀ g ∈ e.2, ∀ c' ∈ g, c'.cid ≠ c.cid) →
      (deleteContainersList s cs).2 = []
      ∧ (deleteContainersList s cs).1.deploymentReplicas = s.deploymentReplicas := by
  intro cs
  induction cs with
  | nil => exact fun s _ => ⟨rfl, rfl⟩
  | cons c rest ih =>
    intro s hinv
    have hc := deleteContainer_invisible
      (fun e he g hg c' hc' => hinv c (List.mem_cons_self _ _) e he g hg c' hc')
    have hrest := ih (deleteContainer s c).1 (fun c2 hc2 e he g hg c' hc' =>
      hinv c2 (List.mem_cons_of_mem _ hc2) e (by rw [← hc.2]; exact he) g hg c' hc')
    refine ⟨?_, ?_⟩
    · simp only [deleteContainersList]
      rw [hc.1, hrest.1]
      rfl
    · simp only [deleteContainersList]
      rw [hrest.2, hc.2]

theorem dropLast_append_getLastD {α : Type} {l : List α} (h : l ≠ []) (d : α) :
    l.dropLast ++ [l.getLastD d] = l := by
  induction l with
  | nil => exact absurd rfl h
  | cons a rest ih =>
    cases rest with
    | nil => rfl
    | cons b r2 => simp_all [List.dropLast, List.getLastD]

theorem mem_groupCids {groups : List (List Container)} {g : List Container}
    {c : Container} (hg : g ∈ groups) (hc : c ∈ g) : c.cid ∈ groupCids groups := by
  rw [groupCids, List.mem_flatMap]
  exact ⟨g, hg, List.mem_map_of_mem _ hc⟩

theorem mem_cidsOf {l : List (Nat × List (List Container))}
    {e : Nat × List (List Container)} {g : List Container} {c : Container}
    (he : e ∈ l) (hg : g ∈ e.2) (hc : c ∈ g) : c.cid ∈ cidsOf l := by
  rw [cidsOf, List.mem_flatMap]
  exact ⟨e, he, mem_groupCids hg hc⟩

theorem cidsOf_split (L₁ L₂ : List (Nat × List (List Container))) (dep : Nat)
    (X : List (List Container)) :
    cidsOf (L₁ ++ (dep, X) :: L₂) = cidsOf L₁ ++ (groupCids X ++ cidsOf L₂) := by
  simp [cidsOf, List.flatMap_append, List.flatMap_cons]

theorem groupCids_pop {groups : List (List Container)} (hne : groups ≠ []) :
    groupCids groups
      = groupCids groups.dropLast ++ (groups.getLastD []).map (fun c => c.cid) := by
  conv_lhs => rw [← dropLast_append_getLastD hne []]
  simp [groupCids, List.flatMap_append]

theorem popGroup_spec {s : CPState} {dep : Nat} {groups : List (List Container)}
    (hnd : (allCids s).Nodup)
    (halo : alookup dep s.deploymentReplicas = some groups)
    (hne : groups ≠ []) :
    alookup dep (ainsert dep groups.dropLast s.deploymentReplicas)
      = some groups.dropLast
    ∧ (cidsOf (ainsert dep groups.dropLast s.deploymentReplicas)).Nodup
    ∧ (∀ c ∈ groups.getLastD [],
        ∀ e ∈ ainsert dep groups.dropLast s.deploymentReplicas,
          ∀ g ∈ e.2, ∀ c' ∈ g, c'.cid ≠ c.cid)
    ∧ (ainsert dep groups.dropLast s.deploymentReplicas).map Prod.fst
        = s.deploymentReplicas.map Prod.fst := by
  rcases alookup_split halo with ⟨L₁, L₂, hsp, hk1⟩
  have hins : ainsert dep groups.dropLast s.deploymentReplicas
      = L₁ ++ (dep, groups.dropLast) :: L₂ := by
    rw [hsp]
    exact ainsert_found _ hk1
  have hlook : alookup dep (L₁ ++ (dep, groups.dropLast) :: L₂)
      = some groups.dropLast := by
    rw [alookup_append_right hk1]
    simp [alookup]
  have hcids : allCids s
      = cidsOf L₁ ++ ((groupCids groups.dropLast
          ++ (groups.getLastD []).map (fun c => c.cid)) ++ cidsOf L₂) := by
    rw [allCids, hsp, cidsOf_split, ← groupCids_pop hne]
  rw [hcids] at hnd
  -- permute the popped group's cids to the end
  have hperm :
      (cidsOf L₁ ++ ((groupCids groups.dropLast
          ++ (groups.getLastD []).map (fun c => c.cid)) ++ cidsOf L₂)).Perm
        ((cidsOf L₁ ++ (groupCids groups.dropLast ++ cidsOf L₂))
          ++ (groups.getLastD []).map (fun c => c.cid)) := by
    have h1 : ((groups.getLastD []).map (fun c => c.cid) ++ cidsOf L₂).Perm
        (cidsOf L₂ ++ (groups.getLastD []).map (fun c => c.cid)) :=
      List.perm_append_comm
    have h2 := (h1.append_left (groupCids groups.dropLast)).append_left (cidsOf L₁)
    simpa [List.append_assoc] using h2
  have hnd' := (hperm.nodup_iff).mp hnd
  have hdisj := List.disjoint_of_nodup_append hnd'
  refine ⟨by rw [hins]; exact hlook, ?_, ?_, ?_⟩
  · rw [hins, cidsOf_split]
    have := hnd'.of_append_left
    simpa [List.append_assoc] using this
  · intro c hc e he g hg c' hc'
    rw [hins] at he
    have hcmem : c.cid ∈ (groups.getLastD []).map (fun c => c.cid) :=
      List.mem_map_of_mem _ hc
    have hc'mem : c'.cid ∈ cidsOf L₁ ++ (groupCids groups.dropLast ++ cidsOf L₂) := by
      have he3 : e ∈ L₁ ∨ e = (dep, groups.dropLast) ∨ e ∈ L₂ := by simpa using he
      rcases he3 with he' | rfl | he''
      · exact List.mem_append.mpr (Or.inl (mem_cidsOf he' hg hc'))
      · exact List.mem_append.mpr (Or.inr (List.mem_append.mpr
          (Or.inl (mem_groupCids hg hc'))))
      · exact List.mem_append.mpr (Or.inr (List.mem_append.mpr
          (Or.inr (mem_cidsOf he'' hg hc'))))
    exact fun heq => hdisj hc'mem (heq ▸ hcmem)
  · rw [hins, hsp]
    simp

theorem deleteLoop_spec (dep : Nat) :
    ∀ (n : Nat) (s : CPState) (groups : List (List Container)),
      (allCids s).Nodup →
      alookup dep s.deploymentReplicas = some groups →
      (deleteLoop s dep n).2 = []
      ∧ alookup dep (deleteLoop s dep n).1.deploymentReplicas
          = some (groups.take (groups.length - n))
      ∧ (allCids (deleteLoop s dep n).1).Nodup
      ∧ (deleteLoop s dep n).1.deploymentReplicas.map Prod.fst
          = s.deploymentReplicas.map Prod.fst := by
  intro n
  induction n with
  | zero =>
    intro s groups hnd halo
    refine ⟨rfl, ?_, hnd, rfl⟩
    rw [deleteLoop, halo, Nat.sub_zero, List.take_length]
  | succ n ih =>
    intro s groups hnd halo
    by_cases hge : groups.isEmpty = true
    · have hg0 : groups = [] := List.isEmpty_iff.mp hge
      subst hg0
      have hres : deleteLoop s dep (n + 1) = (s, []) := by
        rw [deleteLoop, halo]
        simp
      rw [hres]
      exact ⟨rfl, by simpa using halo, hnd, rfl⟩
    · have hne : groups ≠ [] := fun h0 => hge (by rw [h0]; rfl)
      rcases popGroup_spec hnd halo hne with ⟨p1, p2, p3, p4⟩
      have hinv : ∀ c ∈ (groups.getLastD []).reverse,
          ∀ e ∈ ({ s with deploymentReplicas := ainsert dep groups.dropLast s.deploymentReplicas } : CPState).deploymentReplicas,
            ∀ g ∈ e.2, ∀ c' ∈ g, c'.cid ≠ c.cid := by
        intro c hc
        exact p3 c (List.mem_reverse.mp hc)
      rcases deleteContainersList_invisible (groups.getLastD []).reverse
          { s with deploymentReplicas := ainsert dep groups.dropLast s.deploymentReplicas } hinv with ⟨d1, d2⟩
      have hstep : deleteLoop s dep (n + 1)
          = ((deleteLoop (deleteContainersList { s with deploymentReplicas := ainsert dep groups.dropLast s.deploymentReplicas } (groups.getLastD []).reverse).1 dep n).1,
              (deleteContainersList { s with deploymentReplicas := ainsert dep groups.dropLast s.deploymentReplicas } (groups.getLastD []).reverse).2
              ++ (deleteLoop (deleteContainersList { s with deploymentReplicas := ainsert dep groups.dropLast s.deploymentReplicas } (groups.getLastD []).reverse).1 dep n).2) := by
        rw [deleteLoop, halo]
        simp only [Option.getD_some]
        rw [if_neg hge]
      have hnd1 : (allCids (deleteContainersList { s with deploymentReplicas := ainsert dep groups.dropLast s.deploymentReplicas } (groups.getLastD []).reverse).1).Nodup := by
        rw [allCids, d2]
        exact p2
      have halo1 : alookup dep (deleteContainersList { s with deploymentReplicas := ainsert dep groups.dropLast s.deploymentReplicas } (groups.getLastD []).reverse).1.deploymentReplicas
          = some groups.dropLast := by
        rw [d2]
        exact p1
      rcases ih _ groups.dropLast hnd1 halo1 with ⟨e1, e2, e3, e4⟩
      have htake : groups.dropLast.take (groups.dropLast.length - n)
          = groups.take (groups.length - (n + 1)) := by
        rw [List.dropLast_eq_take, List.take_take, List.length_take]
        have h1 : min (groups.length - 1) groups.length = groups.length - 1 :=
          Nat.min_eq_left (Nat.sub_le _ _)
        rw [h1]
        have h2 : min (groups.length - 1 - n) (groups.length - 1)
            = groups.length - 1 - n := Nat.min_eq_left (Nat.sub_le _ _)
        rw [h2]
        have h3 : groups.length - 1 - n = groups.length - (n + 1) := by omega
        rw [h3]
      rw [hstep]
      refine ⟨?_, ?_, e3, ?_⟩
      · dsimp only
        rw [d1, e1]
        rfl
      · dsimp only
        rw [e2, htake]
      · dsimp only
        rw [e4, d2]
        exact p4

/-- The effective number of replica groups `delete` removes:
`num_replicas = None` or `0` (both falsy) means all. -/
def effectiveReplicas (groups : List (List Container)) : Option Nat → Nat
  | none => groups.length
  | some k => if k = 0 then groups.length else k

/-- C7 (corrected): `delete` removes `effectiveReplicas` groups from the
tail of the deployment's replica list and deletes their containers,
each deletion handing the container's CPU/RAM back to its node and
resetting the node's GPU ledger — but it publishes NO event at all: in
particular, no `deployment.stop` is published even when the replica
list becomes empty (the entry is then silently erased from
`_deployment_replicas`). -/
theorem c7_delete_replica_removal (s : CPState) (dep : Nat)
    (numReplicas : Option Nat) (groups : List (List Container))
    (t : CPState) (c : Container)
    (hnd : (allCids s).Nodup)
    (hkeys : (s.deploymentReplicas.map Prod.fst).Nodup)
    (halo : alookup dep s.deploymentReplicas = some groups)
    (hne : groups ≠ []) :
    (cpDelete s dep numReplicas).2 = []
    ∧ (groups.length ≤ effectiveReplicas groups numReplicas →
        alookup dep (cpDelete s dep numReplicas).1.deploymentReplicas = none)
    ∧ (effectiveReplicas groups numReplicas < groups.length →
        alookup dep (cpDelete s dep numReplicas).1.deploymentReplicas
          = some (groups.take
              (groups.length - effectiveReplicas groups numReplicas)))
    ∧ (deleteContainer t c).1.nodeCpu
        = ainsert ((alookup c.cid t.containerNode).getD 0)
            ((alookup ((alookup c.cid t.containerNode).getD 0) t.nodeCpu).getD 0
              + c.cpuReq) t.nodeCpu
    ∧ (deleteContainer t c).1.nodeRam
        = ainsert ((alookup c.cid t.containerNode).getD 0)
            ((alookup ((alookup c.cid t.containerNode).getD 0) t.nodeRam).getD 0
              + c.ramReq) t.nodeRam
    ∧ (deleteContainer t c).1.nodeGpu
        = ainsert ((alookup c.cid t.containerNode).getD 0) (toLedger c.gpuReq)
            t.nodeGpu := by
  have hneq : (match numReplicas with
      | none => ((alookup dep s.deploymentReplicas).getD []).length
      | some k => if k = 0
          then ((alookup dep s.deploymentReplicas).getD []).length else k)
      = effectiveReplicas groups numReplicas := by
    cases numReplicas with
    | none => rw [halo]; rfl
    | some k => rw [halo]; rfl
  have hcp : cpDelete s dep numReplicas
      = (if ((alookup dep (deleteLoop s dep (effectiveReplicas groups numReplicas)).1.deploymentReplicas).getD []).isEmpty then
          ({ (deleteLoop s dep (effectiveReplicas groups numReplicas)).1 with deploymentReplicas := aerase dep (deleteLoop s dep (effectiveReplicas groups numReplicas)).1.deploymentReplicas }, (deleteLoop s dep (effectiveReplicas groups numReplicas)).2)
        else ((deleteLoop s dep (effectiveReplicas groups numReplicas)).1, (deleteLoop s dep (effectiveReplicas groups numReplicas)).2)) := by
    simp only [cpDelete]
    rw [hneq]
  rcases deleteLoop_spec dep (effectiveReplicas groups numReplicas) s groups
    hnd halo with ⟨e1, e2, e3, e4⟩
  rcases deleteContainer_fields t c with ⟨f1, f2, f3, _, _⟩
  by_cases hcase : groups.length ≤ effectiveReplicas groups numReplicas
  · have h0 : groups.length - effectiveReplicas groups numReplicas = 0 :=
      Nat.sub_eq_zero_of_le hcase
    have hif : ((alookup dep (deleteLoop s dep (effectiveReplicas groups numReplicas)).1.deploymentReplicas).getD []).isEmpty = true := by
      rw [e2, h0]
      rfl
    rw [hcp, if_pos hif]
    refine ⟨e1, fun _ => ?_, fun hlt => absurd hlt (not_lt.mpr hcase),
      f1, f2, f3⟩
    dsimp only
    exact alookup_aerase_self (by rw [e4]; exact hkeys)
  · have hlt : effectiveReplicas groups numReplicas < groups.length :=
      lt_of_not_le hcase
    have htne : groups.take
        (groups.length - effectiveReplicas groups numReplicas) ≠ [] := by
      intro h0
      rcases List.take_eq_nil_iff.mp h0 with h0' | h0'
      · omega
      · exact hne h0'
    have hif : ¬ ((alookup dep (deleteLoop s dep (effectiveReplicas groups numReplicas)).1.deploymentReplicas).getD []).isEmpty = true := by
      rw [e2]
      intro hE
      exact htne (List.isEmpty_iff.mp hE)
    rw [hcp, if_neg hif]
    exact ⟨e1, fun hle => absurd hlt (not_lt.mpr hle), fun _ => e2, f1, f2, f3⟩

/-- A one-deployment, one-group, one-container control-plane state. -/
def c7cState : CPState :=
  { nodeCpu := [(5, 0)], nodeRam := [(5, 0)], nodeGpu := [(5, GpuLedger.null)],
    deploymentReplicas := [(0, [[{ cid := 0, cpuReq := 1, ramReq := 1, gpuReq := none }]])],
    containerDeployment := [(0, 0)],
    containerNode := [(0, 5)] }

/-- Counterexample for C7 as stated: deleting the only replica group of
deployment 0 empties and erases its replica list, yet the call publishes
no event at all — in particular no `deployment.stop`. -/
theorem c7_counterexample :
    (cpDelete c7cState 0 none).2 = []
    ∧ alookup 0 (cpDelete c7cState 0 none).1.deploymentReplicas = none := by
  decide

/-- A two-group state for exercising `c7_delete_replica_removal`. -/
def c7wState : CPState :=
  { nodeCpu := [(1, 4)], nodeRam := [(1, 8)], nodeGpu := [(1, GpuLedger.null)],
    deploymentReplicas := [(7, [[{ cid := 10, cpuReq := 1, ramReq := 2, gpuReq := none }], [{ cid := 11, cpuReq := 1, ramReq := 2, gpuReq := none }]])],
    containerDeployment := [(10, 7), (11, 7)],
    containerNode := [(10, 1), (11, 1)] }

/-- The replica groups of deployment 7 in `c7wState`. -/
def c7wGroups : List (List Container) :=
  [[{ cid := 10, cpuReq := 1, ramReq := 2, gpuReq := none }],
    [{ cid := 11, cpuReq := 1, ramReq := 2, gpuReq := none }]]

/-- A concrete one-container state for the release conjunct. -/
def c7wT : CPState :=
  { nodeCpu := [(1, 3)], nodeRam := [(1, 6)], nodeGpu := [(1, GpuLedger.emptyTup)],
    deploymentReplicas := [], containerDeployment := [(10, 7)],
    containerNode := [(10, 1)] }

/-- The container deleted in the release conjunct of the C7 witness. -/
def c7wC : Container := { cid := 10, cpuReq := 1, ramReq := 2, gpuReq := some (1, 2) }

theorem c7_witness :
    ((allCids c7wState).Nodup
      ∧ (c7wState.deploymentReplicas.map Prod.fst).Nodup
      ∧ alookup 7 c7wState.deploymentReplicas = some c7wGroups
      ∧ c7wGroups ≠ [])
    ∧ ((cpDelete c7wState 7 (some 1)).2 = []
      ∧ (c7wGroups.length ≤ effectiveReplicas c7wGroups (some 1) →
          alookup 7 (cpDelete c7wState 7 (some 1)).1.deploymentReplicas = none)
      ∧ (effectiveReplicas c7wGroups (some 1) < c7wGroups.length →
          alookup 7 (cpDelete c7wState 7 (some 1)).1.deploymentReplicas
            = some (c7wGroups.take
                (c7wGroups.length - effectiveReplicas c7wGroups (some 1))))
      ∧ (deleteContainer c7wT c7wC).1.nodeCpu
          = ainsert ((alookup c7wC.cid c7wT.containerNode).getD 0)
              ((alookup ((alookup c7wC.cid c7wT.containerNode).getD 0) c7wT.nodeCpu).getD 0
                + c7wC.cpuReq) c7wT.nodeCpu
      ∧ (deleteContainer c7wT c7wC).1.nodeRam
          = ainsert ((alookup c7wC.cid c7wT.containerNode).getD 0)
              ((alookup ((alookup c7wC.cid c7wT.containerNode).getD 0) c7wT.nodeRam).getD 0
                + c7wC.ramReq) c7wT.nodeRam
      ∧ (deleteContainer c7wT c7wC).1.nodeGpu
          = ainsert ((alookup c7wC.cid c7wT.containerNode).getD 0)
              (toLedger c7wC.gpuReq) c7wT.nodeGpu) :=
  ⟨⟨by decide, by decide, by decide, by decide⟩,
    c7_delete_replica_removal c7wState 7 (some 1) c7wGroups c7wT c7wC
      (by decide) (by decide) (by decide) (by decide)⟩

end PyCloud
